import Mathlib

/-!
Verification of the MultiLighthouse core against its specification.

The development shallowly embeds the two load-bearing modules of the
repository:

* `src/lib/url-utils.ts` — URL normalization, SSRF validation and batch
  parsing (`normalizeUrl`, `validateUrl`, `parseUrlList`);
* `src/lib/lighthouse-runner.ts` — the transient-error classifier, the
  per-attempt runner with its retry loop (`isTransientError`,
  `runSingleAttempt`, `runSingle`), audit/metric extraction
  (`extractAudits`, `extractMetrics`) and the bounded-concurrency
  scheduler (`processQueue`, `analyzeSite`, `analyzeMultipleSites`).

JavaScript strings are modelled as Lean `String`s with all operations
re-implemented over `String.data` (lists of characters) so that every
definition evaluates inside the kernel.  The WHATWG `URL` class used by
the source is a platform builtin, not repository code; it is modelled
here for http/https URLs by `parseURL`/`serializeURL`, restricted to
inputs that the real parser would accept verbatim: characters that the
WHATWG parser would percent-encode or otherwise rewrite (and hosts it
would renumber, such as non-canonical IPv4 literals) are treated as
parse failures, so on the modelled domain the model agrees with the
platform behaviour character for character.
-/

namespace MultiLighthouse

/-! ## Character-level string helpers (JS string primitives) -/

/-- Test whether `pat` occurs at the start of `s` (character lists). -/
def listPrefixAt : List Char → List Char → Bool
  | [], _ => true
  | _ :: _, [] => false
  | p :: ps, c :: cs => p == c && listPrefixAt ps cs

/-- Test whether `pat` occurs anywhere inside `s`; models
`String.prototype.includes`. -/
def listSubstr (pat : List Char) : List Char → Bool
  | [] => pat.isEmpty
  | c :: cs => listPrefixAt pat (c :: cs) || listSubstr pat cs

/-- `String.prototype.includes`. -/
def strIncludes (s pat : String) : Bool := listSubstr pat.data s.data

/-- `String.prototype.toLowerCase` (the source only meets ASCII data,
where `Char.toLower` agrees with the JS behaviour). -/
def jsToLower (s : String) : String := ⟨s.data.map Char.toLower⟩

/-- `String.prototype.trim`. -/
def jsTrim (s : String) : String :=
  ⟨((s.data.dropWhile Char.isWhitespace).reverse.dropWhile Char.isWhitespace).reverse⟩

/-- `String.prototype.startsWith`. -/
def strStartsWith (s pre : String) : Bool := listPrefixAt pre.data s.data

/-- Last character of a string, if any. -/
def lastChar (s : String) : Option Char := s.data.getLast?

/-- `result.endsWith("/")` from the source. -/
def endsWithSlash (s : String) : Bool := lastChar s == some '/'

/-- `result.slice(0, -1)` from the source. -/
def dropLastChar (s : String) : String := ⟨s.data.dropLast⟩

/-- Split a character list at every character satisfying `sep`,
keeping empty pieces; models `String.prototype.split` with a
single-character-class regular expression. -/
def splitOnP (sep : Char → Bool) : List Char → List (List Char)
  | [] => [[]]
  | c :: cs =>
    match splitOnP sep cs with
    | [] => [[]]
    | r :: rs => if sep c then [] :: r :: rs else (c :: r) :: rs

/-- String-level `split`. -/
def strSplitOn (sep : Char → Bool) (s : String) : List String :=
  (splitOnP sep s.data).map (fun l => ⟨l⟩)

/-- Decimal rendering of a natural number (fuel-based structural
recursion so the kernel can evaluate it); helper for the URL
serializer (ports) and the IPv4 discussion. -/
def natCharsAux : Nat → Nat → List Char → List Char
  | 0, _, acc => acc
  | fuel + 1, n, acc =>
    let d := Nat.digitChar (n % 10)
    if n < 10 then d :: acc else natCharsAux fuel (n / 10) (d :: acc)

/-- Decimal rendering of a natural number as a character list. -/
def natChars (n : Nat) : List Char := natCharsAux (n + 1) n []

/-- Decimal rendering as a string. -/
def natStr (n : Nat) : String := ⟨natChars n⟩

/-- Value of a list of decimal digit characters (most significant
first). -/
def digitsVal (cs : List Char) : Nat :=
  cs.foldl (fun a c => a * 10 + (c.toNat - 48)) 0

/-! ## The WHATWG URL model -/

/-- Characters admitted in a (lower-cased) domain host by the model. -/
def isHostChar (c : Char) : Bool :=
  c.isAlpha || c.isDigit || c == '-' || c == '.' || c == '_'

/-- Characters the model admits verbatim in a path. -/
def isPathChar (c : Char) : Bool :=
  c.isAlphanum || c == '-' || c == '.' || c == '_' || c == '~' || c == '!' ||
  c == '$' || c == '&' || c == '(' || c == ')' || c == '*' || c == '+' ||
  c == ',' || c == ';' || c == '=' || c == ':' || c == '@' || c == '/'

/-- Characters the model admits verbatim in a query. -/
def isQueryChar (c : Char) : Bool := isPathChar c || c == '?'

/-- Characters the model admits verbatim in a fragment. -/
def isFragChar (c : Char) : Bool := isPathChar c || c == '?' || c == '#'

/-- Characters the model admits verbatim in userinfo components. -/
def isUserChar (c : Char) : Bool :=
  c.isAlphanum || c == '-' || c == '.' || c == '_' || c == '~' || c == '!' ||
  c == '$' || c == '&' || c == '(' || c == ')' || c == '*' || c == '+' ||
  c == ','

/-- A canonical decimal IPv4 octet: all digits, value at most 255, and
re-rendering the value reproduces the text (no leading zeros). -/
def isCanonOctet (cs : List Char) : Bool :=
  cs.all Char.isDigit && digitsVal cs ≤ 255 && cs == natChars (digitsVal cs)

/-- Domain-host validity: nonempty, allowed characters, nonempty dot
pieces, and when the last piece is numeric the host must be a canonical
dotted-quad IPv4 (the WHATWG parser renumbers any other numeric host,
which the model conservatively rejects). -/
def validHostCore (cs : List Char) : Bool :=
  let parts := splitOnP (fun c => c == '.') cs
  !cs.isEmpty && cs.all isHostChar && parts.all (fun p => !p.isEmpty) &&
  (if (parts.getLastD []).all Char.isDigit then
     parts.length == 4 && parts.all isCanonOctet
   else true)

/-- Bracketed IPv6-literal host: `[` lower-case hex digits and colons
`]`.  Treated as opaque text (the model does not canonicalize IPv6). -/
def validBracketHost (cs : List Char) : Bool :=
  cs.head? == some '[' && cs.getLast? == some ']' &&
  !((cs.drop 1).dropLast.isEmpty) &&
  (cs.drop 1).dropLast.all (fun c => c.isDigit || ('a' ≤ c && c ≤ 'f') || c == ':')

/-- Host validity in the model. -/
def validHost (cs : List Char) : Bool := validHostCore cs || validBracketHost cs

/-- A parsed http/https URL: the components Node's `URL` object exposes
and its serializer re-emits.  `port = none` means the scheme's default
port (elided by the serializer, as in WHATWG). -/
structure URLRec where
  scheme : String
  username : String
  password : String
  host : String
  port : Option Nat
  path : String
  query : Option String
  fragment : Option String
deriving DecidableEq, Repr

/-- Split a character list at the last occurrence of `sep`; `none` if
`sep` does not occur. -/
def splitLastAt (sep : Char) : List Char → Option (List Char × List Char)
  | [] => none
  | c :: rest =>
    match splitLastAt sep rest with
    | some (b, a) => some (c :: b, a)
    | none => if c == sep then some ([], rest) else none

/-- Parse the userinfo part (text before the last `@` of the
authority): username before the first `:`, password after it. -/
def parseUserinfo (cs : List Char) : Option (String × String) :=
  let u := cs.takeWhile (fun c => !(c == ':'))
  let r := cs.dropWhile (fun c => !(c == ':'))
  match r with
  | [] => if u.all isUserChar then some (⟨u⟩, "") else none
  | _ :: p =>
    if u.all isUserChar && p.all isUserChar then some (⟨u⟩, ⟨p⟩) else none

/-- Split `host[:port]`, honouring bracketed IPv6 hosts. -/
def splitHostPort (cs : List Char) : Option (List Char × Option (List Char)) :=
  match cs with
  | '[' :: _ =>
    let a := cs.takeWhile (fun c => !(c == ']'))
    match cs.dropWhile (fun c => !(c == ']')) with
    | ']' :: [] => some (a ++ [']'], none)
    | ']' :: ':' :: p => some (a ++ [']'], some p)
    | _ => none
  | _ =>
    let h := cs.takeWhile (fun c => !(c == ':'))
    match cs.dropWhile (fun c => !(c == ':')) with
    | [] => some (h, none)
    | _ :: p => some (h, some p)

/-- Parse and canonicalize a port: empty means absent; digits only,
at most 65535; the scheme's default port is elided. -/
def parsePort (scheme : String) (p : List Char) : Option (Option Nat) :=
  if p.isEmpty then some none
  else if p.all Char.isDigit then
    if digitsVal p > 65535 then none
    else if (scheme == "http" && digitsVal p == 80) ||
        (scheme == "https" && digitsVal p == 443) then
      some none
    else some (some (digitsVal p))
  else none

/-- Parse the authority (userinfo, host, port) of an http/https URL. -/
def parseAuthority (scheme : String) (auth : List Char) :
    Option (String × String × String × Option Nat) :=
  let ui := match splitLastAt '@' auth with
    | some (b, _) => b
    | none => []
  let hostport := match splitLastAt '@' auth with
    | some (_, a) => a
    | none => auth
  match parseUserinfo ui with
  | none => none
  | some (username, password) =>
    match splitHostPort hostport with
    | none => none
    | some (hostRaw, portRaw) =>
      if validHost (hostRaw.map Char.toLower) then
        match portRaw with
        | none => some (username, password, ⟨hostRaw.map Char.toLower⟩, none)
        | some pr =>
          match parsePort scheme pr with
          | none => none
          | some port => some (username, password, ⟨hostRaw.map Char.toLower⟩, port)
      else none

/-- The canonical path: root `/` when empty. -/
def pathString (p : List Char) : String := if p.isEmpty then "/" else ⟨p⟩

/-- Parse query and fragment from the remainder after the path (which
is empty or starts with `?` or `#`). -/
def parseQF : List Char → Option (Option String × Option String)
  | [] => some (none, none)
  | '?' :: r2 =>
    if (r2.takeWhile (fun c => !(c == '#'))).all isQueryChar then
      match r2.dropWhile (fun c => !(c == '#')) with
      | '#' :: f =>
        if f.all isFragChar then
          some (some ⟨r2.takeWhile (fun c => !(c == '#'))⟩, some ⟨f⟩)
        else none
      | _ => some (some ⟨r2.takeWhile (fun c => !(c == '#'))⟩, none)
    else none
  | '#' :: f => if f.all isFragChar then some (none, some ⟨f⟩) else none
  | _ => none

/-- Parse path, query and fragment from the remainder after the
authority (which starts with `/`, `?`, `#`, or is empty). -/
def parsePathQF (cs : List Char) : Option (String × Option String × Option String) :=
  if !((cs.takeWhile (fun c => !(c == '?') && !(c == '#'))).all isPathChar) then none
  else if (splitOnP (fun c => c == '/')
      (cs.takeWhile (fun c => !(c == '?') && !(c == '#')))).any
      (fun s => s == ['.'] || s == ['.', '.']) then none
  else
    match parseQF (cs.dropWhile (fun c => !(c == '?') && !(c == '#'))) with
    | none => none
    | some (q, f) =>
      some (pathString (cs.takeWhile (fun c => !(c == '?') && !(c == '#'))), q, f)

/-- Recognize a leading `http://` or `https://` (case-insensitive) and
return the lower-cased scheme with the rest of the input. -/
def schemeSplit (cs : List Char) : Option (String × List Char) :=
  if listPrefixAt "https://".data (cs.map Char.toLower) then
    some ("https", cs.drop 8)
  else if listPrefixAt "http://".data (cs.map Char.toLower) then
    some ("http", cs.drop 7)
  else none

/-- Model of `new URL(s)` for the http/https inputs this codebase
feeds it (see the module comment for the modelled domain). -/
def parseURL (s : String) : Option URLRec :=
  match schemeSplit s.data with
  | none => none
  | some (scheme, rest) =>
    match parseAuthority scheme
        (rest.takeWhile (fun c => !(c == '/') && !(c == '?') && !(c == '#'))) with
    | none => none
    | some (username, password, host, port) =>
      match parsePathQF
          (rest.dropWhile (fun c => !(c == '/') && !(c == '?') && !(c == '#'))) with
      | none => none
      | some (path, query, fragment) =>
        some ⟨scheme, username, password, host, port, path, query, fragment⟩

/-- Model of `URL.prototype.toString` / `href`. -/
def serializeURL (u : URLRec) : String :=
  u.scheme ++ "://" ++
  (if u.username = "" ∧ u.password = "" then "" else
    u.username ++ (if u.password = "" then "" else ":" ++ u.password) ++ "@") ++
  u.host ++
  (match u.port with | none => "" | some n => ":" ++ natStr n) ++
  u.path ++
  (match u.query with | none => "" | some q => "?" ++ q) ++
  (match u.fragment with | none => "" | some f => "#" ++ f)

/-- The userinfo characters of the serialization (with the `@`). -/
def uiChars (u : URLRec) : List Char :=
  if u.username = "" ∧ u.password = "" then [] else
    u.username.data ++ (if u.password = "" then [] else ':' :: u.password.data) ++ ['@']

/-- The port characters of the serialization (with the `:`). -/
def portChars (u : URLRec) : List Char :=
  match u.port with | none => [] | some n => ':' :: natChars n

/-- The query characters of the serialization (with the `?`). -/
def qChars (u : URLRec) : List Char :=
  match u.query with | none => [] | some q => '?' :: q.data

/-- The fragment characters of the serialization (with the `#`). -/
def fChars (u : URLRec) : List Char :=
  match u.fragment with | none => [] | some f => '#' :: f.data

/-! ## `url-utils.ts` -/

/-- The test `/^https?:\/\//i.test(url)` from `normalizeUrl`. -/
def hasHttpScheme (s : String) : Bool :=
  listPrefixAt "http://".data (s.data.map Char.toLower) ||
  listPrefixAt "https://".data (s.data.map Char.toLower)

/-- `normalizeUrl` from `src/lib/url-utils.ts`: trim; prepend
`https://` when no http(s) prefix; parse; lower-case protocol and
hostname; reserialize; strip the trailing slash when the path is
exactly root. -/
def normalizeUrl (input : String) : String :=
  let url := jsTrim input
  if url = "" then ""
  else
    let url := if hasHttpScheme url then url else "https://" ++ url
    match parseURL url with
    | none => ""
    | some parsed =>
      let parsed := { parsed with
        scheme := jsToLower parsed.scheme, host := jsToLower parsed.host }
      let result := serializeURL parsed
      if endsWithSlash result && parsed.path == "/" then dropLastChar result
      else result

/-- `BLOCKED_HOSTNAMES` from `src/lib/url-utils.ts`. -/
def BLOCKED_HOSTNAMES : List String :=
  ["localhost", "127.0.0.1", "0.0.0.0", "::1", "[::1]",
   "metadata.google.internal", "169.254.169.254"]

/-- Regular expression `/^10\./`. -/
def matches10 (h : List Char) : Bool := listPrefixAt "10.".data h

/-- Regular expression `/^172\.(1[6-9]|2[0-9]|3[01])\./`. -/
def matches172 (h : List Char) : Bool :=
  match h with
  | '1' :: '7' :: '2' :: '.' :: c1 :: c2 :: '.' :: _ =>
    (c1 == '1' && ('6' ≤ c2 && c2 ≤ '9')) ||
    (c1 == '2' && c2.isDigit) ||
    (c1 == '3' && (c2 == '0' || c2 == '1'))
  | _ => false

/-- Regular expression `/^192\.168\./`. -/
def matches192 (h : List Char) : Bool := listPrefixAt "192.168.".data h

/-- Regular expression `/^127\./`. -/
def matches127 (h : List Char) : Bool := listPrefixAt "127.".data h

/-- Regular expression `/^0\./`. -/
def matches0 (h : List Char) : Bool := listPrefixAt "0.".data h

/-- Regular expression `/^169\.254\./`. -/
def matches169254 (h : List Char) : Bool := listPrefixAt "169.254.".data h

/-- Regular expression `/^fc00:/i`. -/
def matchesFc00 (h : List Char) : Bool :=
  listPrefixAt "fc00:".data (h.map Char.toLower)

/-- Regular expression `/^fe80:/i`. -/
def matchesFe80 (h : List Char) : Bool :=
  listPrefixAt "fe80:".data (h.map Char.toLower)

/-- `PRIVATE_IP_RANGES` from `src/lib/url-utils.ts`, one matcher per
regular expression, in source order. -/
def PRIVATE_IP_RANGES : List (List Char → Bool) :=
  [matches10, matches172, matches192, matches127, matches0,
   matches169254, matchesFc00, matchesFe80]

/-- `PRIVATE_IP_RANGES.some(range => range.test(hostname))`. -/
def anyPrivate (h : String) : Bool := PRIVATE_IP_RANGES.any (fun f => f h.data)

/-- Result shape of `validateUrl`. -/
structure ValidationOutcome where
  valid : Bool
  url : Option String := none
  error : Option String := none
deriving DecidableEq, Repr

/-- `validateUrl` from `src/lib/url-utils.ts`. -/
def validateUrl (input : String) : ValidationOutcome :=
  if normalizeUrl input = "" then ⟨false, none, some "Invalid URL format"⟩
  else
    match parseURL (normalizeUrl input) with
    | none => ⟨false, none, some "Invalid URL format"⟩
    | some parsed =>
      if !(["http:", "https:"].contains (parsed.scheme ++ ":")) then
        ⟨false, none, some "Only HTTP and HTTPS URLs are allowed"⟩
      else if BLOCKED_HOSTNAMES.contains (jsToLower parsed.host) then
        ⟨false, none, some "Internal/localhost URLs are not allowed"⟩
      else if anyPrivate parsed.host then
        ⟨false, none, some "Private IP addresses are not allowed"⟩
      else if !(strIncludes parsed.host ".") &&
          !(BLOCKED_HOSTNAMES.contains parsed.host) then
        ⟨false, none, some "URL must have a valid domain"⟩
      else ⟨true, some (normalizeUrl input), none⟩

/-- `parseUrlList`'s main loop: validate each line, deduplicate the
accepted URLs by normalized form (`seen`), collect rejections. -/
def parseUrlListGo : List String → List String → List String × List (String × String)
  | [], _ => ([], [])
  | line :: rest, seen =>
    let r := validateUrl line
    match r.valid, r.url with
    | true, some u =>
      if u ≠ "" then
        if seen.contains u then parseUrlListGo rest seen
        else
          let (v, i) := parseUrlListGo rest (u :: seen)
          (u :: v, i)
      else
        let (v, i) := parseUrlListGo rest seen
        (v, (line, r.error.getD "Invalid URL") :: i)
    | _, _ =>
      let (v, i) := parseUrlListGo rest seen
      (v, (line, r.error.getD "Invalid URL") :: i)

/-- Result shape of `parseUrlList` (`valid` holds the `url` fields). -/
structure UrlListOutcome where
  valid : List String
  invalid : List (String × String)
deriving DecidableEq, Repr

/-- `parseUrlList` from `src/lib/url-utils.ts`: split on newlines or
commas, trim, drop empties, validate, deduplicate accepted URLs. -/
def parseUrlList (input : String) : UrlListOutcome :=
  let lines := ((strSplitOn (fun c => c == '\n' || c == ',') input).map jsTrim).filter
    (fun l => l.length > 0)
  let (v, i) := parseUrlListGo lines []
  ⟨v, i⟩

/-- Well-formedness of a parsed URL record: exactly the properties the
model parser guarantees of its output, and what the serializer needs
for the parse/serialize round trip. -/
def WF (u : URLRec) : Prop :=
  (u.scheme = "http" ∨ u.scheme = "https") ∧
  validHost u.host.data = true ∧
  u.host.data.map Char.toLower = u.host.data ∧
  u.username.data.all isUserChar = true ∧
  u.password.data.all isUserChar = true ∧
  (∀ n, u.port = some n → n ≤ 65535 ∧
    ¬(u.scheme = "http" ∧ n = 80) ∧ ¬(u.scheme = "https" ∧ n = 443)) ∧
  u.path.data ≠ [] ∧ u.path.data.head? = some '/' ∧
  u.path.data.all isPathChar = true ∧
  ((splitOnP (fun c => c == '/') u.path.data).any
    (fun s => s == ['.'] || s == ['.', '.'])) = false ∧
  (∀ q, u.query = some q → q.data.all isQueryChar = true) ∧
  (∀ f, u.fragment = some f → f.data.all isFragChar = true)

/-- The root-slash strip condition of `normalizeUrl`, evaluated on an
already-normalized string: true when a further application of
`normalizeUrl` would strip yet another character. -/
def stripAgain (v : String) : Bool :=
  match parseURL v with
  | some p => endsWithSlash v && p.path == "/"
  | none => false

/-- Dotted-quad IPv4 text built from four octet values. -/
def ipv4Chars (a b c d : Nat) : List Char :=
  natChars a ++ '.' :: (natChars b ++ '.' :: (natChars c ++ '.' :: natChars d))

/-- Spec-side reading of the private/link-local IPv4 ranges named in
the specification: 10.0.0.0/8, 172.16.0.0–172.31.255.255,
192.168.0.0/16, 127.0.0.0/8, 0.0.0.0/8 and 169.254.0.0/16 (membership
of a dotted quad in these ranges depends only on the first two
octets). -/
def inPrivateRangesSpec (a b : Nat) : Prop :=
  a = 10 ∨ (a = 172 ∧ 16 ≤ b ∧ b ≤ 31) ∨ (a = 192 ∧ b = 168) ∨
  a = 127 ∨ a = 0 ∨ (a = 169 ∧ b = 254)

/-- The authority characters of a serialization: userinfo, host and
port, exactly the text `parseURL` hands to `parseAuthority`. -/
def coreChars (u : URLRec) : List Char :=
  uiChars u ++ (u.host.data ++ portChars u)

/-- The host-dependent part of `validateUrl`'s acceptance decision,
read off the source: not a blocked hostname (after lower-casing), no
private-range match, and either a dot in the host or a blocked-list
member (the source's last check, negated). -/
def hostOnlyAccept (h : String) : Bool :=
  !(BLOCKED_HOSTNAMES.contains (jsToLower h)) && !(anyPrivate h) &&
  (strIncludes h "." || BLOCKED_HOSTNAMES.contains h)

/-! ## `lighthouse-runner.ts`: constants and transient-error classifier -/

/-- `MAX_CONCURRENT` from `src/lib/lighthouse-runner.ts`. -/
def MAX_CONCURRENT : Nat := 3

/-- `TIMEOUT_MS` from `src/lib/lighthouse-runner.ts`. -/
def TIMEOUT_MS : Nat := 90000

/-- `MAX_RETRIES` from `src/lib/lighthouse-runner.ts`. -/
def MAX_RETRIES : Nat := 3

/-- `RETRY_DELAY_MS` from `src/lib/lighthouse-runner.ts`. -/
def RETRY_DELAY_MS : Nat := 2000

/-- `TRANSIENT_PATTERNS` from `src/lib/lighthouse-runner.ts`. -/
def TRANSIENT_PATTERNS : List String :=
  ["performance mark", "econnrefused", "econnreset", "navigation timeout",
   "target closed", "session closed", "protocol error"]

/-- `isTransientError` from `src/lib/lighthouse-runner.ts`. -/
def isTransientError (message : String) : Bool :=
  let lower := jsToLower message
  TRANSIENT_PATTERNS.any (fun pattern => strIncludes lower pattern)

/-! ## The Lighthouse payload (`lhr`) model and extraction -/

/-- The `details` blob of an audit, as far as the code reads it:
`(details as \x7b items?: unknown[] \x7d)?.items?.length`. -/
structure DetailsRec where
  items : Option (List String) := none
deriving DecidableEq, Repr

/-- One entry of `lhr.audits`. -/
structure AuditRec where
  id : String
  title : String
  description : Option String := none
  score : Option ℚ := none
  numericValue : Option ℚ := none
  displayValue : Option String := none
  details : Option DetailsRec := none
deriving DecidableEq, Repr

/-- One member of a category's `auditRefs`. -/
structure AuditRef where
  id : String
deriving DecidableEq, Repr

/-- One entry of `lhr.categories`. -/
structure CategoryRec where
  score : Option ℚ := none
  auditRefs : Option (List AuditRef) := none
deriving DecidableEq, Repr

/-- The Lighthouse result payload, with object properties modelled as
association lists in key-insertion order and the raw serialized JSON
carried opaquely in `raw` (the source stores `JSON.stringify(lhr)`). -/
structure LHR where
  categories : List (String × CategoryRec)
  audits : List (String × AuditRec)
  raw : String
deriving DecidableEq, Repr

/-- JS property access `obj[key]` on an object association list. -/
def jsGet {α : Type} (l : List (String × α)) (k : String) : Option α :=
  (l.find? (fun p => p.1 == k)).map (fun p => p.2)

/-- `MetricsSummary` from `src/lib/lighthouse-runner.ts`. -/
structure MetricsSummary where
  firstContentfulPaint : Option ℚ := none
  largestContentfulPaint : Option ℚ := none
  totalBlockingTime : Option ℚ := none
  cumulativeLayoutShift : Option ℚ := none
  speedIndex : Option ℚ := none
  timeToInteractive : Option ℚ := none
  totalRequestCount : Option Nat := none
  totalByteWeight : Option ℚ := none
deriving DecidableEq, Repr

/-- `extractMetrics` from `src/lib/lighthouse-runner.ts`. -/
def extractMetrics (lhr : LHR) : MetricsSummary :=
  let audits := lhr.audits
  { firstContentfulPaint := (jsGet audits "first-contentful-paint").bind (fun a => a.numericValue)
    largestContentfulPaint := (jsGet audits "largest-contentful-paint").bind (fun a => a.numericValue)
    totalBlockingTime := (jsGet audits "total-blocking-time").bind (fun a => a.numericValue)
    cumulativeLayoutShift := (jsGet audits "cumulative-layout-shift").bind (fun a => a.numericValue)
    speedIndex := (jsGet audits "speed-index").bind (fun a => a.numericValue)
    timeToInteractive := (jsGet audits "interactive").bind (fun a => a.numericValue)
    totalRequestCount :=
      ((((jsGet audits "network-requests").bind (fun a => a.details)).bind
        (fun d => d.items)).map List.length)
    totalByteWeight := (jsGet audits "total-byte-weight").bind (fun a => a.numericValue) }

/-- `AuditSummary` from `src/lib/lighthouse-runner.ts`. -/
structure AuditSummary where
  id : String
  title : String
  description : String
  score : Option ℚ
  numericValue : Option ℚ := none
  displayValue : Option String := none
  category : String
  details : Option DetailsRec := none
deriving DecidableEq, Repr

/-- The `categoryMap` built by `extractAudits`: iterate the categories
in entry order and record `ref.id -> catId` assignments; a later
assignment overwrites an earlier one, so lookups read the last one. -/
def categoryMapOf (cats : List (String × CategoryRec)) : List (String × String) :=
  cats.foldl
    (fun m p =>
      match p.2.auditRefs with
      | some refs => m ++ refs.map (fun r => (r.id, p.1))
      | none => m)
    []

/-- `categoryMap[audit.id] || "other"` (JS `||` also replaces an empty
string by `"other"`). -/
def categoryFor (m : List (String × String)) (id : String) : String :=
  match (m.reverse.find? (fun p => p.1 == id)).map (fun p => p.2) with
  | some c => if c = "" then "other" else c
  | none => "other"

/-- Insert `x` into `l` after every element `y` with `le y x`; the
building block of a stable sort. -/
def insertSorted {α : Type} (le : α → α → Bool) (x : α) : List α → List α
  | [] => [x]
  | y :: ys => if le y x then y :: insertSorted le x ys else x :: y :: ys

/-- Stable comparison sort; models `Array.prototype.sort` with a
numeric comparator (JS engines' sort is stable). -/
def jsSortBy {α : Type} (le : α → α → Bool) (l : List α) : List α :=
  l.foldl (fun acc x => insertSorted le x acc) []

/-- The comparator `(a, b) => (a.score ?? 1) - (b.score ?? 1)` as the
ordering it induces. -/
def auditLe (a b : AuditSummary) : Bool := a.score.getD 1 ≤ b.score.getD 1

/-- `extractAudits` from `src/lib/lighthouse-runner.ts`: keep audits
with a non-null score strictly below 1, attach category labels, and
sort ascending by score. -/
def extractAudits (lhr : LHR) : List AuditSummary :=
  let categoryMap := categoryMapOf lhr.categories
  jsSortBy auditLe
    (((lhr.audits.map (fun p => p.2)).filter
        (fun audit =>
          match audit.score with
          | some s => decide (s < 1)
          | none => false)).map
      (fun audit =>
        { id := audit.id
          title := audit.title
          description := audit.description.getD ""
          score := audit.score
          numericValue := audit.numericValue
          displayValue := audit.displayValue
          category := categoryFor categoryMap audit.id
          details := audit.details }))

/-! ## `runSingleAttempt` and the retry loop `runSingle` -/

/-- The device selector. -/
inductive Device where
  | mobile
  | desktop
deriving DecidableEq, Repr

/-- `Math.round(q * 100)` on an exact rational score: JS `Math.round`
rounds half up, i.e. gives `⌊100 q + 1/2⌋`, which on the
numerator/denominator form is the floor division below (see
`jsRound100_eq_floor`). -/
def jsRound100 (q : ℚ) : ℤ := Int.fdiv (200 * q.num + (q.den : ℤ)) (2 * (q.den : ℤ))

/-- `LighthouseResult` from `src/lib/lighthouse-runner.ts`. -/
structure LighthouseResult where
  url : String
  performance : ℤ
  accessibility : ℤ
  bestPractices : ℤ
  seo : ℤ
  audits : List AuditSummary
  metrics : MetricsSummary
  rawJson : String
  error : Option String := none
deriving DecidableEq, Repr

/-- The successful-attempt result built by `runSingleAttempt` from a
Lighthouse payload. -/
def buildResult (url : String) (lhr : LHR) : LighthouseResult :=
  let categories := lhr.categories
  { url := url
    performance := jsRound100 (((jsGet categories "performance").bind (fun c => c.score)).getD 0)
    accessibility := jsRound100 (((jsGet categories "accessibility").bind (fun c => c.score)).getD 0)
    bestPractices := jsRound100 (((jsGet categories "best-practices").bind (fun c => c.score)).getD 0)
    seo := jsRound100 (((jsGet categories "seo").bind (fun c => c.score)).getD 0)
    audits := extractAudits lhr
    metrics := extractMetrics lhr
    rawJson := lhr.raw }

/-- A thrown JS value as `runSingle`'s catch sees it. -/
inductive Thrown where
  | errObj (msg : String)
  | nonError
deriving DecidableEq, Repr

/-- `err instanceof Error ? err.message : "Unknown error"`. -/
def thrownMessage : Thrown → String
  | .errObj msg => msg
  | .nonError => "Unknown error"

/-- Behaviour of one attempt's external effects (the Auditor
capability): the Lighthouse/Chrome call may resolve with a payload,
resolve without a payload, lose the 90 s timeout race, or throw. -/
inductive AttemptOutcome where
  | ok (lhr : LHR)
  | noResult
  | timeout
  | failure (msg : String)
  | failureNonError
deriving DecidableEq, Repr

/-- `runSingleAttempt` from `src/lib/lighthouse-runner.ts`, as a
function of the attempt's external behaviour: a successful race builds
the result via `buildResult`; a missing payload throws
`"Lighthouse returned no results"`; an elapsed timeout rejects with
`"Lighthouse timeout"`; other failures propagate the thrown value. -/
def runSingleAttempt (url : String) (_device : Device) (b : AttemptOutcome) :
    Except Thrown LighthouseResult :=
  match b with
  | .ok lhr => .ok (buildResult url lhr)
  | .noResult => .error (.errObj "Lighthouse returned no results")
  | .timeout => .error (.errObj "Lighthouse timeout")
  | .failure msg => .error (.errObj msg)
  | .failureNonError => .error .nonError

/-- Result of a whole `runSingle` call, instrumented with the number
of attempts performed and the backoff delays awaited between them. -/
structure RunOutcome where
  result : LighthouseResult
  attempts : Nat
  delays : List Nat
deriving DecidableEq, Repr

/-- The failure `LighthouseResult` returned after the retry loop. -/
def failureResult (url : String) (lastError : String) : LighthouseResult :=
  { url := url, performance := 0, accessibility := 0, bestPractices := 0,
    seo := 0, audits := [], metrics := {}, rawJson := "\x7b\x7d",
    error := some lastError }

/-- The `for (let attempt = 1; attempt <= MAX_RETRIES; attempt++)`
loop of `runSingle`; `oracle` gives each attempt's external behaviour,
`fuel` is a structural bound never reached before the loop condition
fails. -/
def runSingleLoop (url : String) (device : Device) (oracle : Nat → AttemptOutcome) :
    Nat → Nat → String → List Nat → RunOutcome
  | 0, attempt, lastError, delays => ⟨failureResult url lastError, attempt - 1, delays⟩
  | fuel + 1, attempt, lastError, delays =>
    if attempt ≤ MAX_RETRIES then
      match runSingleAttempt url device (oracle attempt) with
      | .ok r => ⟨r, attempt, delays⟩
      | .error t =>
        let lastError := thrownMessage t
        if attempt < MAX_RETRIES && isTransientError lastError then
          runSingleLoop url device oracle fuel (attempt + 1) lastError
            (delays ++ [RETRY_DELAY_MS])
        else ⟨failureResult url lastError, attempt, delays⟩
    else ⟨failureResult url lastError, attempt - 1, delays⟩

/-- `runSingle` from `src/lib/lighthouse-runner.ts`: up to
`MAX_RETRIES` attempts, retrying after a fixed delay only on
transient-classified failures, and returning (never throwing) either
the successful attempt's result or `failureResult` with the last
error message (initially `"Unknown error"`). -/
def runSingle (url : String) (device : Device) (oracle : Nat → AttemptOutcome) : RunOutcome :=
  runSingleLoop url device oracle (MAX_RETRIES + 1) 1 "Unknown error" []

/-! ## The bounded-concurrency scheduler -/

/-- One queued job: the wait-list entry of `analyzeSite` (its
`resolve`/`reject` callbacks are represented by the promise id the
batch layer collects). -/
structure QItem where
  id : Nat
  url : String
  device : Device
deriving DecidableEq, Repr

/-- Scheduler state: `activeJobs` and `queue` are the module-level
mutable state of `lighthouse-runner.ts`; `running` is the (ghost) set
of jobs whose `runSingle` is in flight; `resolved` records each
delivered promise resolution in delivery order. -/
structure SchedState where
  activeJobs : Nat
  queue : List QItem
  running : List QItem
  resolved : List (Nat × LighthouseResult)
deriving DecidableEq, Repr

/-- The `while (activeJobs < MAX_CONCURRENT && queue.length > 0)` loop
of `processQueue`: shift the head job, increment `activeJobs`, start
its `runSingle` (move it to `running`). -/
def processQueueGo : List QItem → Nat → List QItem → List QItem × Nat × List QItem
  | [], activeJobs, running => ([], activeJobs, running)
  | job :: rest, activeJobs, running =>
    if activeJobs < MAX_CONCURRENT then
      processQueueGo rest (activeJobs + 1) (running ++ [job])
    else (job :: rest, activeJobs, running)

/-- `processQueue` from `src/lib/lighthouse-runner.ts`. -/
def processQueue (s : SchedState) : SchedState :=
  { s with
    queue := (processQueueGo s.queue s.activeJobs s.running).1
    activeJobs := (processQueueGo s.queue s.activeJobs s.running).2.1
    running := (processQueueGo s.queue s.activeJobs s.running).2.2 }

/-- `analyzeSite`: push the job onto the wait-list and drain.  The JS
event loop runs each of these blocks atomically. -/
def submitEvent (s : SchedState) (item : QItem) : SchedState :=
  processQueue { s with queue := s.queue ++ [item] }

/-- Terminal completion of a running job: its `runSingle` promise
settles (always fulfilled, with the result of `runSingle` on the
job's own url and device, supplied by `outcome`), the job's promise is
resolved, then the `finally` handler decrements `activeJobs` and
drains again. -/
def finishEvent (outcome : String → Device → LighthouseResult) (s : SchedState)
    (item : QItem) : SchedState :=
  processQueue
    { s with
      activeJobs := s.activeJobs - 1
      running := s.running.erase item
      resolved := s.resolved ++ [(item.id, outcome item.url item.device)] }

/-- The initial module state: `activeJobs = 0`, empty queue. -/
def initState : SchedState := ⟨0, [], [], []⟩

/-- All states the scheduler can reach under any interleaving of job
submissions and terminal completions. -/
inductive Reach (outcome : String → Device → LighthouseResult) : SchedState → Prop where
  | init : Reach outcome initState
  | submit (s : SchedState) (item : QItem) :
      Reach outcome s → Reach outcome (submitEvent s item)
  | finish (s : SchedState) (item : QItem) :
      Reach outcome s → item ∈ s.running → Reach outcome (finishEvent outcome s item)

/-- `analyzeMultipleSites`' submission phase:
`urls.map(url => analyzeSite(url, device))` creates one promise per
url, in order, with promise ids `0, 1, 2, ...`. -/
def submitAllGo (device : Device) : List String → Nat → SchedState → SchedState
  | [], _, s => s
  | u :: us, i, s => submitAllGo device us (i + 1) (submitEvent s ⟨i, u, device⟩)

/-- State after `analyzeMultipleSites(urls, device)` has submitted all
its jobs. -/
def submitAll (urls : List String) (device : Device) : SchedState :=
  submitAllGo device urls 0 initState

/-- Zero or more terminal completions, in any order. -/
inductive FinishSteps (outcome : String → Device → LighthouseResult) :
    SchedState → SchedState → Prop where
  | refl (s : SchedState) : FinishSteps outcome s s
  | step (s : SchedState) (item : QItem) (t : SchedState) :
      item ∈ s.running → FinishSteps outcome (finishEvent outcome s item) t →
      FinishSteps outcome s t

/-- `Promise.all` reads promise `i`'s resolution value. -/
def lookupResolved (res : List (Nat × LighthouseResult)) (i : Nat) :
    Option LighthouseResult :=
  (res.find? (fun p => p.1 == i)).map (fun p => p.2)

/-- The array `Promise.all` resolves with: slot `i` holds promise
`i`'s value. -/
def batchResults (s : SchedState) (k : Nat) : List (Option LighthouseResult) :=
  (List.range k).map (lookupResolved s.resolved)

/-! ## Scheduler lemmas -/

theorem processQueueGo_active_le (q : List QItem) (a : Nat) (r : List QItem)
    (h : a ≤ MAX_CONCURRENT) : (processQueueGo q a r).2.1 ≤ MAX_CONCURRENT := by
  induction q generalizing a r with
  | nil => simpa [processQueueGo] using h
  | cons j rest ih =>
    by_cases hc : a < MAX_CONCURRENT
    · simpa [processQueueGo, hc] using ih (a + 1) (r ++ [j]) (by omega)
    · simpa [processQueueGo, hc] using h

theorem processQueueGo_active_eq (q : List QItem) (a : Nat) (r : List QItem)
    (h : a = r.length) : (processQueueGo q a r).2.1 = (processQueueGo q a r).2.2.length := by
  induction q generalizing a r with
  | nil => simpa [processQueueGo] using h
  | cons j rest ih =>
    by_cases hc : a < MAX_CONCURRENT
    · simpa [processQueueGo, hc] using ih (a + 1) (r ++ [j]) (by simp [h])
    · simpa [processQueueGo, hc] using h

theorem processQueueGo_append (q : List QItem) (a : Nat) (r : List QItem) :
    (processQueueGo q a r).2.2 ++ (processQueueGo q a r).1 = r ++ q := by
  induction q generalizing a r with
  | nil => simp [processQueueGo]
  | cons j rest ih =>
    by_cases hc : a < MAX_CONCURRENT
    · simpa [processQueueGo, hc] using ih (a + 1) (r ++ [j])
    · simp [processQueueGo, hc]

theorem processQueue_resolved (s : SchedState) :
    (processQueue s).resolved = s.resolved := rfl

theorem processQueue_active_le (s : SchedState) (h : s.activeJobs ≤ MAX_CONCURRENT) :
    (processQueue s).activeJobs ≤ MAX_CONCURRENT :=
  processQueueGo_active_le _ _ _ h

theorem processQueue_active_eq (s : SchedState) (h : s.activeJobs = s.running.length) :
    (processQueue s).activeJobs = (processQueue s).running.length :=
  processQueueGo_active_eq _ _ _ h

theorem processQueue_members (s : SchedState) :
    (processQueue s).running ++ (processQueue s).queue = s.running ++ s.queue :=
  processQueueGo_append _ _ _

/-- The core scheduler invariant: `activeJobs` counts exactly the
in-flight jobs and never exceeds the ceiling. -/
theorem reach_invariant (outcome : String → Device → LighthouseResult) (s : SchedState)
    (h : Reach outcome s) :
    s.activeJobs = s.running.length ∧ s.activeJobs ≤ MAX_CONCURRENT := by
  induction h with
  | init => simp [initState]
  | submit s item _ ih =>
    obtain ⟨h1, h2⟩ := ih
    exact ⟨processQueue_active_eq _ h1, processQueue_active_le _ h2⟩
  | finish s item _ hmem ih =>
    obtain ⟨h1, h2⟩ := ih
    have hlen : 0 < s.running.length := List.length_pos_of_mem hmem
    have h1' : s.activeJobs - 1 = (s.running.erase item).length := by
      rw [List.length_erase_of_mem hmem]; omega
    exact ⟨processQueue_active_eq _ h1',
      processQueue_active_le _ (show s.activeJobs - 1 ≤ MAX_CONCURRENT by omega)⟩

/-! ## Batch (`analyzeMultipleSites`) invariant -/

/-- A wait-list or in-flight item of a batch over `vs`: promise id
below the batch size, carrying its own url and the batch device. -/
def goodItem (vs : List String) (device : Device) (item : QItem) : Prop :=
  item.id < vs.length ∧ vs[item.id]? = some item.url ∧ item.device = device

/-- Invariant tying a scheduler state to a batch of `k` submitted
jobs over the url list `vs`. -/
def BatchInv (vs : List String) (device : Device)
    (outcome : String → Device → LighthouseResult) (k : Nat) (s : SchedState) : Prop :=
  s.activeJobs = s.running.length ∧
  (∀ item ∈ s.running ++ s.queue, goodItem vs device item) ∧
  (∀ p ∈ s.resolved, ∃ u, vs[p.1]? = some u ∧ p.2 = outcome u device) ∧
  (s.resolved.map Prod.fst ++ (s.running ++ s.queue).map QItem.id).Perm (List.range k)

theorem batchInv_init (vs : List String) (device : Device)
    (outcome : String → Device → LighthouseResult) :
    BatchInv vs device outcome 0 initState := by
  refine ⟨rfl, ?_, ?_, ?_⟩ <;> simp [initState, BatchInv]

theorem batchInv_submit (vs : List String) (device : Device)
    (outcome : String → Device → LighthouseResult) (k : Nat) (s : SchedState)
    (item : QItem) (hinv : BatchInv vs device outcome k s)
    (hid : item.id = k) (hgood : goodItem vs device item) :
    BatchInv vs device outcome (k + 1) (submitEvent s item) := by
  obtain ⟨h1, h2, h3, h4⟩ := hinv
  refine ⟨processQueue_active_eq _ h1, ?_, ?_, ?_⟩
  · intro x hx
    have hmm := processQueue_members { s with queue := s.queue ++ [item] }
    simp only [submitEvent] at hx
    rw [hmm] at hx
    simp only [List.mem_append, List.mem_singleton] at hx
    rcases hx with hx | (hx | hx)
    · exact h2 x (List.mem_append.2 (Or.inl hx))
    · exact h2 x (List.mem_append.2 (Or.inr hx))
    · exact hx ▸ hgood
  · intro p hp
    simp only [submitEvent, processQueue_resolved] at hp
    exact h3 p hp
  · have hm := congrArg (List.map QItem.id) (processQueue_members { s with queue := s.queue ++ [item] })
    simp only [List.map_append] at hm
    have goal1 :
        ((processQueue { s with queue := s.queue ++ [item] }).resolved.map Prod.fst ++
          ((processQueue { s with queue := s.queue ++ [item] }).running ++
            (processQueue { s with queue := s.queue ++ [item] }).queue).map QItem.id)
        = (s.resolved.map Prod.fst ++ (s.running ++ s.queue).map QItem.id) ++ [item.id] := by
      rw [processQueue_resolved]
      simp only [List.map_append]
      rw [hm]
      simp
    simp only [submitEvent]
    rw [goal1, hid, List.range_succ]
    exact h4.append_right _

theorem batchInv_finish (vs : List String) (device : Device)
    (outcome : String → Device → LighthouseResult) (k : Nat) (s : SchedState)
    (item : QItem) (hinv : BatchInv vs device outcome k s) (hmem : item ∈ s.running) :
    BatchInv vs device outcome k (finishEvent outcome s item) := by
  obtain ⟨h1, h2, h3, h4⟩ := hinv
  have hgood : goodItem vs device item := h2 item (List.mem_append.2 (Or.inl hmem))
  have hlen : 0 < s.running.length := List.length_pos_of_mem hmem
  have h1' : s.activeJobs - 1 = (s.running.erase item).length := by
    rw [List.length_erase_of_mem hmem]; omega
  have hperm : s.running.Perm (item :: s.running.erase item) := List.perm_cons_erase hmem
  set s' : SchedState :=
    { activeJobs := s.activeJobs - 1
      queue := s.queue
      running := s.running.erase item
      resolved := s.resolved ++ [(item.id, outcome item.url item.device)] } with hs'
  refine ⟨processQueue_active_eq s' h1', ?_, ?_, ?_⟩
  · intro x hx
    have hm := processQueue_members s'
    rw [finishEvent, ← hs'] at hx
    rw [hm] at hx
    simp only [hs', List.mem_append] at hx
    rcases hx with hx | hx
    · exact h2 x (List.mem_append.2 (Or.inl (List.mem_of_mem_erase hx)))
    · exact h2 x (List.mem_append.2 (Or.inr hx))
  · intro p hp
    rw [finishEvent, ← hs', processQueue_resolved] at hp
    simp only [hs', List.mem_append, List.mem_singleton] at hp
    rcases hp with hp | hp
    · exact h3 p hp
    · subst hp
      exact ⟨item.url, hgood.2.1, by rw [hgood.2.2]⟩
  · rw [finishEvent, ← hs']
    have hm := congrArg (List.map QItem.id) (processQueue_members s')
    simp only [List.map_append] at hm
    have goal1 :
        ((processQueue s').resolved.map Prod.fst ++
          ((processQueue s').running ++ (processQueue s').queue).map QItem.id)
        = (s.resolved.map Prod.fst ++ [item.id]) ++
            ((s.running.erase item).map QItem.id ++ s.queue.map QItem.id) := by
      rw [processQueue_resolved]
      simp only [List.map_append]
      rw [hm]
      simp [hs']
    rw [goal1]
    refine List.Perm.trans ?_ h4
    have hr : (item.id :: (s.running.erase item).map QItem.id).Perm (s.running.map QItem.id) :=
      (hperm.map QItem.id).symm
    have base : ((item.id :: (s.running.erase item).map QItem.id) ++ s.queue.map QItem.id).Perm
        (s.running.map QItem.id ++ s.queue.map QItem.id) := hr.append_right _
    have shuffle : ((s.resolved.map Prod.fst ++ [item.id]) ++
        ((s.running.erase item).map QItem.id ++ s.queue.map QItem.id))
        = s.resolved.map Prod.fst ++
            ((item.id :: (s.running.erase item).map QItem.id) ++ s.queue.map QItem.id) := by
      simp
    rw [shuffle]
    have target : s.resolved.map Prod.fst ++ (s.running ++ s.queue).map QItem.id
        = s.resolved.map Prod.fst ++ (s.running.map QItem.id ++ s.queue.map QItem.id) := by
      simp
    rw [target]
    exact base.append_left _

theorem batchInv_finishSteps (vs : List String) (device : Device)
    (outcome : String → Device → LighthouseResult) (k : Nat) (s t : SchedState)
    (h : FinishSteps outcome s t) (hinv : BatchInv vs device outcome k s) :
    BatchInv vs device outcome k t := by
  induction h with
  | refl s => exact hinv
  | step s item t hmem _ ih =>
    exact ih (batchInv_finish vs device outcome k s item hinv hmem)

theorem submitAllGo_inv (vs : List String) (device : Device)
    (outcome : String → Device → LighthouseResult) :
    ∀ (us : List String) (i : Nat) (s : SchedState),
      vs.drop i = us → BatchInv vs device outcome i s →
      BatchInv vs device outcome (i + us.length) (submitAllGo device us i s) := by
  intro us
  induction us with
  | nil => intro i s _ hinv; simpa [submitAllGo] using hinv
  | cons u rest ih =>
    intro i s hdrop hinv
    have hi : i < vs.length := by
      by_contra hcon
      rw [List.drop_eq_nil_of_le (by omega)] at hdrop
      exact List.noConfusion hdrop
    have hget : vs[i]? = some u := by
      have := List.getElem?_drop vs i 0
      rw [hdrop] at this
      simpa using this.symm
    have hdrop' : vs.drop (i + 1) = rest := by
      have h0 := List.drop_drop 1 i vs
      rw [← h0, hdrop]
      simp
    have hstep := batchInv_submit vs device outcome i s ⟨i, u, device⟩ hinv rfl
      ⟨hi, hget, rfl⟩
    have := ih (i + 1) (submitEvent s ⟨i, u, device⟩) hdrop' hstep
    simpa [submitAllGo, Nat.add_assoc, Nat.add_comm 1 rest.length] using this

theorem submitAll_inv (vs : List String) (device : Device)
    (outcome : String → Device → LighthouseResult) :
    BatchInv vs device outcome vs.length (submitAll vs device) := by
  have := submitAllGo_inv vs device outcome vs 0 initState (by simp)
    (batchInv_init vs device outcome)
  simpa [submitAll] using this

theorem submitAll_resolved (vs : List String) (device : Device) :
    (submitAll vs device).resolved = [] := by
  suffices h : ∀ (us : List String) (i : Nat) (s : SchedState),
      (submitAllGo device us i s).resolved = s.resolved by
    simpa [submitAll, initState] using h vs 0 initState
  intro us
  induction us with
  | nil => intro i s; rfl
  | cons u rest ih =>
    intro i s
    rw [submitAllGo, ih, submitEvent, processQueue_resolved]

theorem lookupResolved_of_nodup (res : List (Nat × LighthouseResult)) (i : Nat)
    (r : LighthouseResult) (hmem : (i, r) ∈ res) (hnd : (res.map Prod.fst).Nodup) :
    lookupResolved res i = some r := by
  induction res with
  | nil => cases hmem
  | cons p rest ih =>
    rw [List.map_cons, List.nodup_cons] at hnd
    rcases List.mem_cons.1 hmem with hp | hp
    · subst hp
      simp [lookupResolved, List.find?_cons]
    · have hne : (p.1 == i) = false := by
        rw [beq_eq_false_iff_ne]
        intro hcon
        exact hnd.1 (hcon ▸ List.mem_map.2 ⟨(i, r), hp, rfl⟩)
      have hrest := ih hp hnd.2
      simpa [lookupResolved, List.find?_cons, hne] using hrest

/-! ## Claims C1 and C2 -/

/-- C1: for every sequence of submitted jobs and every interleaving of
their completions, the scheduler's running count `activeJobs` never
exceeds `MAX_CONCURRENT = 3` at any instant: `processQueue` only
starts a job while `activeJobs < MAX_CONCURRENT`, increments before
starting it (each loop iteration of `processQueueGo` starts one job
under the guard), and decrements exactly once at that job's terminal
completion (`finishEvent` removes the job from the in-flight set);
`activeJobs` always equals the number of in-flight jobs. -/
theorem C1_concurrency_bound (outcome : String → Device → LighthouseResult)
    (s : SchedState) (h : Reach outcome s) :
    s.activeJobs ≤ MAX_CONCURRENT ∧ s.activeJobs = s.running.length :=
  ⟨(reach_invariant outcome s h).2, (reach_invariant outcome s h).1⟩

/-- C1 witness: after four submissions only three jobs run. -/
theorem C1_concurrency_bound_witness :
    (submitEvent (submitEvent (submitEvent (submitEvent initState ⟨0, "a", Device.mobile⟩)
        ⟨1, "b", Device.mobile⟩) ⟨2, "c", Device.mobile⟩) ⟨3, "d", Device.mobile⟩).activeJobs
      ≤ MAX_CONCURRENT := by
  exact (C1_concurrency_bound (fun u _ => failureResult u "x") _
    (Reach.submit _ ⟨3, "d", Device.mobile⟩
      (Reach.submit _ ⟨2, "c", Device.mobile⟩
        (Reach.submit _ ⟨1, "b", Device.mobile⟩
          (Reach.submit _ ⟨0, "a", Device.mobile⟩ Reach.init))))).1

/-- C2: for every batch input, with `vs` the valid unique-after-
normalization urls of `parseUrlList` (`K = vs.length` of them),
`analyzeMultipleSites` submits exactly `K` jobs, and whenever every
submitted job has completed — in any completion order — exactly `K`
results have been delivered and the `Promise.all` array is
index-aligned: slot `i` holds the result for `vs[i]`. -/
theorem C2_batch_alignment (input : String) (device : Device)
    (outcome : String → Device → LighthouseResult) (f : SchedState)
    (hsteps : FinishSteps outcome (submitAll (parseUrlList input).valid device) f)
    (hq : f.queue = []) (hr : f.running = []) :
    ((submitAll (parseUrlList input).valid device).running.length
        + (submitAll (parseUrlList input).valid device).queue.length
      = (parseUrlList input).valid.length) ∧
    f.resolved.length = (parseUrlList input).valid.length ∧
    batchResults f (parseUrlList input).valid.length
      = (parseUrlList input).valid.map (fun u => some (outcome u device)) := by
  have hinv0 := submitAll_inv (parseUrlList input).valid device outcome
  have hres0 := submitAll_resolved (parseUrlList input).valid device
  have hinvf := batchInv_finishSteps (parseUrlList input).valid device outcome
    (parseUrlList input).valid.length _ _ hsteps hinv0
  obtain ⟨_, _, hgoodf, hpermf⟩ := hinvf
  rw [hq, hr] at hpermf
  simp only [List.append_nil, List.nil_append, List.map_nil] at hpermf
  obtain ⟨_, _, _, hperm0⟩ := hinv0
  rw [hres0] at hperm0
  simp only [List.map_nil, List.nil_append, List.map_append] at hperm0
  refine ⟨?_, ?_, ?_⟩
  · have hl := hperm0.length_eq
    simpa using hl
  · have hl := hpermf.length_eq
    simpa using hl
  · have hnd : (f.resolved.map Prod.fst).Nodup :=
      hpermf.nodup_iff.2 (List.nodup_range _)
    refine List.ext_getElem (by simp [batchResults]) ?_
    intro n h1 h2
    have hn : n < (parseUrlList input).valid.length := by simpa using h2
    simp only [batchResults, List.getElem_map, List.getElem_range]
    have hmemn : n ∈ f.resolved.map Prod.fst :=
      hpermf.mem_iff.2 (List.mem_range.2 hn)
    obtain ⟨p, hpmem, hpfst⟩ := List.mem_map.1 hmemn
    obtain ⟨u, hu, hval⟩ := hgoodf p hpmem
    have hp : (n, p.2) ∈ f.resolved := by
      rw [← hpfst]
      simpa using hpmem
    rw [lookupResolved_of_nodup f.resolved n p.2 hp hnd]
    rw [hpfst] at hu
    rw [List.getElem?_eq_getElem hn] at hu
    rw [hval, Option.some.inj hu]

/-- C2 witness: a two-url batch whose second job finishes first still
delivers results in submission order. -/
theorem C2_batch_alignment_witness :
    batchResults
        (finishEvent (fun u _ => failureResult u "x")
          (finishEvent (fun u _ => failureResult u "x")
            (submitAll (parseUrlList "https://example.com\nhttps://google.com").valid
              Device.mobile)
            ⟨1, "https://google.com", Device.mobile⟩)
          ⟨0, "https://example.com", Device.mobile⟩)
        (parseUrlList "https://example.com\nhttps://google.com").valid.length
      = (parseUrlList "https://example.com\nhttps://google.com").valid.map
          (fun u => some (failureResult u "x")) := by
  exact (C2_batch_alignment "https://example.com\nhttps://google.com" Device.mobile
    (fun u _ => failureResult u "x") _
    (FinishSteps.step _ ⟨1, "https://google.com", Device.mobile⟩ _ (by decide)
      (FinishSteps.step _ ⟨0, "https://example.com", Device.mobile⟩ _ (by decide)
        (FinishSteps.refl _)))
    (by decide) (by decide)).2.2

/-! ## Retry-loop step lemmas -/

theorem runSingleLoop_ok (url : String) (device : Device) (oracle : Nat → AttemptOutcome)
    (fuel attempt : Nat) (lastError : String) (delays : List Nat) (r : LighthouseResult)
    (hle : attempt ≤ MAX_RETRIES)
    (hok : runSingleAttempt url device (oracle attempt) = .ok r) :
    runSingleLoop url device oracle (fuel + 1) attempt lastError delays = ⟨r, attempt, delays⟩ := by
  simp [runSingleLoop, hle, hok]

theorem runSingleLoop_retry (url : String) (device : Device) (oracle : Nat → AttemptOutcome)
    (fuel attempt : Nat) (lastError : String) (delays : List Nat) (t : Thrown)
    (hlt : attempt < MAX_RETRIES)
    (herr : runSingleAttempt url device (oracle attempt) = .error t)
    (htr : isTransientError (thrownMessage t) = true) :
    runSingleLoop url device oracle (fuel + 1) attempt lastError delays
      = runSingleLoop url device oracle fuel (attempt + 1) (thrownMessage t)
          (delays ++ [RETRY_DELAY_MS]) := by
  simp [runSingleLoop, Nat.le_of_lt hlt, herr, hlt, htr]

theorem runSingleLoop_stop (url : String) (device : Device) (oracle : Nat → AttemptOutcome)
    (fuel attempt : Nat) (lastError : String) (delays : List Nat) (t : Thrown)
    (hle : attempt ≤ MAX_RETRIES)
    (herr : runSingleAttempt url device (oracle attempt) = .error t)
    (hstop : (attempt < MAX_RETRIES ∧ isTransientError (thrownMessage t) = true) → False) :
    runSingleLoop url device oracle (fuel + 1) attempt lastError delays
      = ⟨failureResult url (thrownMessage t), attempt, delays⟩ := by
  have hcond : (decide (attempt < MAX_RETRIES) && isTransientError (thrownMessage t)) = false := by
    by_cases h1 : attempt < MAX_RETRIES
    · cases h2 : isTransientError (thrownMessage t)
      · simp [h2]
      · exact absurd ⟨h1, h2⟩ hstop
    · simp [h1]
  simp only [runSingleLoop, hle, if_true, herr]
  simp [hle, hcond]

/-! ## Claims C3, C4, C5 -/

/-- C3: `runSingle` is a total function into `LighthouseResult` (its
`try/catch` converts every attempt behaviour — success, thrown error
or timeout — into a value, so it never throws or rejects to its
caller); when every attempt fails there is a last performed attempt
`n ≤ MAX_RETRIES` whose thrown value `t` determines the returned
record: all four scores `0`, `audits = []`, `metrics = \x7b\x7d`,
`rawJson = "\x7b\x7d"`, and `error` set to that attempt's message. -/
theorem C3_failure_encoding (url : String) (device : Device) (oracle : Nat → AttemptOutcome)
    (hfail : ∀ k, 1 ≤ k → k ≤ MAX_RETRIES →
      ∃ t, runSingleAttempt url device (oracle k) = .error t) :
    ∃ (n : Nat) (t : Thrown), 1 ≤ n ∧ n ≤ MAX_RETRIES ∧
      runSingleAttempt url device (oracle n) = .error t ∧
      runSingle url device oracle =
        ⟨{ url := url, performance := 0, accessibility := 0, bestPractices := 0, seo := 0,
           audits := [], metrics := {}, rawJson := "\x7b\x7d",
           error := some (thrownMessage t) }, n, List.replicate (n - 1) RETRY_DELAY_MS⟩ := by
  obtain ⟨t1, h1⟩ := hfail 1 (by omega) (by decide)
  obtain ⟨t2, h2⟩ := hfail 2 (by omega) (by decide)
  obtain ⟨t3, h3⟩ := hfail 3 (by omega) (by decide)
  rw [runSingle]
  by_cases tr1 : isTransientError (thrownMessage t1) = true
  · rw [show MAX_RETRIES + 1 = 3 + 1 from rfl,
      runSingleLoop_retry url device oracle 3 1 _ _ t1 (by decide) h1 tr1]
    by_cases tr2 : isTransientError (thrownMessage t2) = true
    · rw [show (3 : Nat) = 2 + 1 from rfl,
        runSingleLoop_retry url device oracle 2 2 _ _ t2 (by decide) h2 tr2]
      rw [show (2 : Nat) = 1 + 1 from rfl,
        runSingleLoop_stop url device oracle 1 3 _ _ t3 (by decide) h3
          (fun hc => absurd hc.1 (by decide))]
      exact ⟨3, t3, by omega, by decide, h3, rfl⟩
    · rw [show (3 : Nat) = 2 + 1 from rfl,
        runSingleLoop_stop url device oracle 2 2 _ _ t2 (by decide) h2
          (fun hc => tr2 hc.2)]
      exact ⟨2, t2, by omega, by decide, h2, rfl⟩
  · rw [show MAX_RETRIES + 1 = 3 + 1 from rfl,
      runSingleLoop_stop url device oracle 3 1 _ _ t1 (by decide) h1
        (fun hc => tr1 hc.2)]
    exact ⟨1, t1, by omega, by decide, h1, rfl⟩

/-- C3 witness: an oracle that always times out yields the
all-zero failure record after one attempt. -/
theorem C3_failure_encoding_witness :
    ∃ (n : Nat) (t : Thrown), 1 ≤ n ∧ n ≤ MAX_RETRIES ∧
      runSingleAttempt "u" Device.mobile ((fun _ => AttemptOutcome.timeout) n) = .error t ∧
      runSingle "u" Device.mobile (fun _ => AttemptOutcome.timeout) =
        ⟨{ url := "u", performance := 0, accessibility := 0, bestPractices := 0, seo := 0,
           audits := [], metrics := {}, rawJson := "\x7b\x7d",
           error := some (thrownMessage t) }, n, List.replicate (n - 1) RETRY_DELAY_MS⟩ :=
  C3_failure_encoding "u" Device.mobile (fun _ => AttemptOutcome.timeout)
    (fun _ _ _ => ⟨Thrown.errObj "Lighthouse timeout", rfl⟩)

/-- C4: the per-attempt timeout message `"Lighthouse timeout"`
contains (case-insensitively) no entry of the transient-pattern set,
`isTransientError` classifies it non-transient, and a timed-out
attempt is never retried: whatever attempt `k ≤ MAX_RETRIES` the loop
has reached, a timeout there ends the job as a failure carrying that
message after exactly that attempt, with no further delay. -/
theorem C4_timeout_never_retried :
    (∀ pattern ∈ TRANSIENT_PATTERNS,
      strIncludes (jsToLower "Lighthouse timeout") pattern = false) ∧
    isTransientError "Lighthouse timeout" = false ∧
    (∀ (url : String) (device : Device) (oracle : Nat → AttemptOutcome)
      (fuel attempt : Nat) (lastError : String) (delays : List Nat),
      attempt ≤ MAX_RETRIES → oracle attempt = .timeout →
      runSingleLoop url device oracle (fuel + 1) attempt lastError delays
        = ⟨failureResult url "Lighthouse timeout", attempt, delays⟩) := by
  refine ⟨by decide, by decide, ?_⟩
  intro url device oracle fuel attempt lastError delays hle hor
  have herr : runSingleAttempt url device (oracle attempt)
      = .error (.errObj "Lighthouse timeout") := by rw [hor]; rfl
  exact runSingleLoop_stop url device oracle fuel attempt lastError delays _ hle herr
    (fun hc => by
      have : isTransientError "Lighthouse timeout" = true := hc.2
      simp [show isTransientError "Lighthouse timeout" = false from by decide] at this)

/-- C4 witness: a first-attempt timeout terminates immediately. -/
theorem C4_timeout_never_retried_witness :
    runSingleLoop "u" Device.mobile (fun _ => AttemptOutcome.timeout) 3 1 "Unknown error" []
      = ⟨failureResult "u" "Lighthouse timeout", 1, []⟩ :=
  C4_timeout_never_retried.2.2 "u" Device.mobile (fun _ => AttemptOutcome.timeout)
    2 1 "Unknown error" [] (by decide) rfl

/-- C5: a job whose three attempts all fail with transient-classified
error messages performs exactly `MAX_RETRIES = 3` attempts, waits the
fixed `RETRY_DELAY_MS = 2000` ms backoff between consecutive attempts
(two delays), and resolves with the failure record carrying the third
attempt's message. -/
theorem C5_transient_retry_budget (url : String) (device : Device)
    (oracle : Nat → AttemptOutcome) (m1 m2 m3 : String)
    (h1 : oracle 1 = .failure m1) (h2 : oracle 2 = .failure m2)
    (h3 : oracle 3 = .failure m3)
    (t1 : isTransientError m1 = true) (t2 : isTransientError m2 = true)
    (t3 : isTransientError m3 = true) :
    runSingle url device oracle
      = ⟨failureResult url m3, MAX_RETRIES, [RETRY_DELAY_MS, RETRY_DELAY_MS]⟩ := by
  have e1 : runSingleAttempt url device (oracle 1) = .error (.errObj m1) := by rw [h1]; rfl
  have e2 : runSingleAttempt url device (oracle 2) = .error (.errObj m2) := by rw [h2]; rfl
  have e3 : runSingleAttempt url device (oracle 3) = .error (.errObj m3) := by rw [h3]; rfl
  rw [runSingle]
  rw [show MAX_RETRIES + 1 = 3 + 1 from rfl,
    runSingleLoop_retry url device oracle 3 1 _ _ _ (by decide) e1 t1]
  rw [show (3 : Nat) = 2 + 1 from rfl,
    runSingleLoop_retry url device oracle 2 2 _ _ _ (by decide) e2 t2]
  rw [show (2 : Nat) = 1 + 1 from rfl,
    runSingleLoop_stop url device oracle 1 3 _ _ _ (by decide) e3
      (fun hc => absurd hc.1 (by decide))]
  rfl

/-- C5 witness: three `"Target closed"` failures. -/
theorem C5_transient_retry_budget_witness :
    runSingle "u" Device.mobile (fun _ => AttemptOutcome.failure "Target closed")
      = ⟨failureResult "u" "Target closed", MAX_RETRIES, [RETRY_DELAY_MS, RETRY_DELAY_MS]⟩ :=
  C5_transient_retry_budget "u" Device.mobile _ "Target closed" "Target closed" "Target closed"
    rfl rfl rfl (by decide) (by decide) (by decide)

/-! ## Stable-sort lemmas and claim C9 -/

theorem mem_insertSorted {α : Type} (le : α → α → Bool) (x a : α) (l : List α) :
    a ∈ insertSorted le x l ↔ a = x ∨ a ∈ l := by
  induction l with
  | nil => simp [insertSorted]
  | cons y ys ih =>
    by_cases h : le y x
    · simp only [insertSorted, if_pos h, List.mem_cons, ih]
      tauto
    · simp only [insertSorted, if_neg h, List.mem_cons]

theorem pairwise_insertSorted {α : Type} (le : α → α → Bool)
    (htot : ∀ a b, le a b = true ∨ le b a = true)
    (htrans : ∀ a b c, le a b = true → le b c = true → le a c = true)
    (x : α) (l : List α) (hl : l.Pairwise (fun a b => le a b = true)) :
    (insertSorted le x l).Pairwise (fun a b => le a b = true) := by
  induction l with
  | nil => simp [insertSorted]
  | cons y ys ih =>
    obtain ⟨hy, hys⟩ := List.pairwise_cons.1 hl
    by_cases h : le y x = true
    · rw [insertSorted, if_pos h]
      refine List.pairwise_cons.2 ⟨?_, ih hys⟩
      intro b hb
      rcases (mem_insertSorted le x b ys).1 hb with rfl | hb
      · exact h
      · exact hy b hb
    · rw [insertSorted, if_neg h]
      have hxy : le x y = true := by
        rcases htot x y with hxy | hyx
        · exact hxy
        · exact absurd hyx h
      refine List.pairwise_cons.2 ⟨?_, hl⟩
      intro b hb
      rcases List.mem_cons.1 hb with rfl | hb
      · exact hxy
      · exact htrans x y b hxy (hy b hb)

theorem mem_jsSortBy {α : Type} (le : α → α → Bool) (a : α) (l : List α) :
    a ∈ jsSortBy le l ↔ a ∈ l := by
  suffices h : ∀ acc : List α,
      (a ∈ l.foldl (fun acc x => insertSorted le x acc) acc ↔ a ∈ acc ∨ a ∈ l) by
    simpa [jsSortBy] using h []
  induction l with
  | nil => intro acc; simp
  | cons y ys ih =>
    intro acc
    simp only [List.foldl_cons, ih (insertSorted le y acc), mem_insertSorted,
      List.mem_cons]
    tauto

theorem pairwise_jsSortBy {α : Type} (le : α → α → Bool)
    (htot : ∀ a b, le a b = true ∨ le b a = true)
    (htrans : ∀ a b c, le a b = true → le b c = true → le a c = true)
    (l : List α) :
    (jsSortBy le l).Pairwise (fun a b => le a b = true) := by
  suffices h : ∀ acc : List α, acc.Pairwise (fun a b => le a b = true) →
      (l.foldl (fun acc x => insertSorted le x acc) acc).Pairwise
        (fun a b => le a b = true) by
    simpa [jsSortBy] using h [] (by simp)
  induction l with
  | nil => intro acc hacc; simpa using hacc
  | cons y ys ih =>
    intro acc hacc
    exact ih (insertSorted le y acc) (pairwise_insertSorted le htot htrans y acc hacc)

/-- C9: every successful attempt result carries the audits produced by
`extractAudits`: only audits whose score is present and strictly below
1 appear (perfect-score and score-less audits are excluded), and the
list is sorted ascending by score. -/
theorem C9_audits_filtered_sorted (url : String) (device : Device) (lhr : LHR) :
    runSingleAttempt url device (.ok lhr) = .ok (buildResult url lhr) ∧
    (buildResult url lhr).audits = extractAudits lhr ∧
    (∀ a ∈ (buildResult url lhr).audits, ∃ s, a.score = some s ∧ s < 1) ∧
    (buildResult url lhr).audits.Pairwise
      (fun a b => a.score.getD 1 ≤ b.score.getD 1) := by
  refine ⟨rfl, rfl, ?_, ?_⟩
  · intro a ha
    have hmem : a ∈ extractAudits lhr := ha
    rw [extractAudits] at hmem
    rw [mem_jsSortBy] at hmem
    obtain ⟨audit, hfil, hmap⟩ := List.mem_map.1 hmem
    have hpred := List.of_mem_filter hfil
    match hsc : audit.score with
    | none => rw [hsc] at hpred; simp at hpred
    | some s =>
      rw [hsc] at hpred
      simp only [decide_eq_true_eq] at hpred
      refine ⟨s, ?_, hpred⟩
      rw [← hmap]
      simpa using hsc
  · have htot : ∀ a b : AuditSummary, auditLe a b = true ∨ auditLe b a = true := by
      intro a b
      simp only [auditLe, decide_eq_true_eq]
      exact le_total _ _
    have htrans : ∀ a b c : AuditSummary,
        auditLe a b = true → auditLe b c = true → auditLe a c = true := by
      intro a b c
      simp only [auditLe, decide_eq_true_eq]
      exact le_trans
    refine List.Pairwise.imp ?_ (pairwise_jsSortBy auditLe htot htrans _)
    intro a b h
    simpa [auditLe] using h

/-! ## Character lemmas -/

theorem toNat_ofNat_valid (n : Nat) (h : n.isValidChar) : (Char.ofNat n).toNat = n := by
  rw [Char.ofNat, dif_pos h]
  rfl

theorem toLower_eq_self (c : Char) (h : ¬(c.toNat ≥ 65 ∧ c.toNat ≤ 90)) :
    c.toLower = c := by
  simp only [Char.toLower]
  rw [if_neg h]

theorem toLower_idem (c : Char) : c.toLower.toLower = c.toLower := by
  simp only [Char.toLower]
  by_cases h : c.toNat ≥ 65 ∧ c.toNat ≤ 90
  · rw [if_pos h]
    have hv : (c.toNat + 32).isValidChar := by
      left
      omega
    rw [toNat_ofNat_valid _ hv, if_neg (by omega)]
  · rw [if_neg h, if_neg h]

theorem map_toLower_idem (cs : List Char) :
    (cs.map Char.toLower).map Char.toLower = cs.map Char.toLower := by
  rw [List.map_map]
  exact List.map_congr_left (fun c _ => toLower_idem c)

/-- Transfer of character-class membership: if `c` satisfies a Boolean
predicate that a specific character `x` fails, then `c ≠ x`. -/
theorem beq_false_of_pred {P : Char → Bool} {c x : Char}
    (hc : P c = true) (hx : P x = false) : (c == x) = false := by
  cases h : c == x
  · rfl
  · rw [beq_iff_eq] at h
    rw [h] at hc
    rw [hc] at hx
    cases hx

theorem isDigit_toNat_range (c : Char) (h : c.isDigit = true) :
    48 ≤ c.toNat ∧ c.toNat ≤ 57 := by
  simp only [Char.isDigit, Bool.and_eq_true, decide_eq_true_eq] at h
  obtain ⟨h1, h2⟩ := h
  rw [ge_iff_le, UInt32.le_def, BitVec.le_def] at h1
  rw [UInt32.le_def, BitVec.le_def] at h2
  exact ⟨h1, h2⟩

theorem isDigit_toLower (c : Char) (h : c.isDigit = true) : c.toLower = c := by
  have := isDigit_toNat_range c h
  exact toLower_eq_self c (by omega)

/-! ## Decimal-rendering lemmas -/

theorem natCharsAux_fuel (n : Nat) : ∀ (f g : Nat) (acc : List Char),
    n < f → n < g → natCharsAux f n acc = natCharsAux g n acc := by
  induction n using Nat.strong_induction_on with
  | _ n ih =>
    intro f g acc hf hg
    cases f with
    | zero => omega
    | succ fp =>
      cases g with
      | zero => omega
      | succ gp =>
        simp only [natCharsAux]
        by_cases h : n < 10
        · simp [h]
        · simp only [if_neg h]
          exact ih (n / 10) (by omega) fp gp _ (by omega) (by omega)

theorem natChars_lt10 (n : Nat) (h : n < 10) : natChars n = [Nat.digitChar n] := by
  simp [natChars, natCharsAux, h, Nat.mod_eq_of_lt h]

theorem natChars_decomp (n : Nat) (h : ¬ n < 10) :
    natChars n = natChars (n / 10) ++ [Nat.digitChar (n % 10)] := by
  have key : ∀ m : Nat, ∀ (f : Nat) (acc : List Char), m < f →
      natCharsAux f m acc = natChars m ++ acc := by
    intro m
    induction m using Nat.strong_induction_on with
    | _ m ih =>
      intro f acc hf
      cases f with
      | zero => omega
      | succ fp =>
        by_cases hm : m < 10
        · simp [natCharsAux, hm, natChars_lt10 m hm, Nat.mod_eq_of_lt hm]
        · simp only [natCharsAux, if_neg hm]
          rw [ih (m / 10) (by omega) fp _ (by omega)]
          have hn : natChars m = natChars (m / 10) ++ [Nat.digitChar (m % 10)] := by
            rw [natChars]
            simp only [natCharsAux, if_neg hm]
            exact ih (m / 10) (by omega) m _ (by omega)
          rw [hn, List.append_assoc]
          rfl
  rw [natChars]
  simp only [natCharsAux, if_neg h]
  exact key (n / 10) n _ (by omega)

theorem digitChar_isDigit (n : Nat) (h : n < 10) : (Nat.digitChar n).isDigit = true := by
  interval_cases n <;> decide

theorem digitChar_toNat (n : Nat) (h : n < 10) : (Nat.digitChar n).toNat = 48 + n := by
  interval_cases n <;> decide

theorem natChars_digits (n : Nat) : (natChars n).all Char.isDigit = true := by
  induction n using Nat.strong_induction_on with
  | _ n ih =>
    by_cases h : n < 10
    · rw [natChars_lt10 n h]
      simp [digitChar_isDigit n h]
    · rw [natChars_decomp n h]
      rw [List.all_append]
      rw [ih (n / 10) (by omega)]
      simp [digitChar_isDigit (n % 10) (by omega)]

theorem natChars_ne_nil (n : Nat) : natChars n ≠ [] := by
  by_cases h : n < 10
  · rw [natChars_lt10 n h]
    simp
  · rw [natChars_decomp n h]
    simp

theorem digitsVal_natChars (n : Nat) : digitsVal (natChars n) = n := by
  induction n using Nat.strong_induction_on with
  | _ n ih =>
    by_cases h : n < 10
    · rw [natChars_lt10 n h]
      simp only [digitsVal, List.foldl_cons, List.foldl_nil]
      rw [digitChar_toNat n (by omega)]
      omega
    · rw [natChars_decomp n h]
      simp only [digitsVal, List.foldl_append, List.foldl_cons, List.foldl_nil]
      have hv := ih (n / 10) (by omega)
      simp only [digitsVal] at hv
      rw [hv, digitChar_toNat (n % 10) (by omega)]
      omega

theorem isCanonOctet_natChars (n : Nat) (h : n ≤ 255) :
    isCanonOctet (natChars n) = true := by
  simp only [isCanonOctet, Bool.and_eq_true]
  refine ⟨⟨natChars_digits n, ?_⟩, ?_⟩
  · rw [digitsVal_natChars]
    simpa using h
  · rw [digitsVal_natChars]
    simp

/-! ## List-splitting lemmas -/

theorem listPrefixAt_self_append (pre rest : List Char) :
    listPrefixAt pre (pre ++ rest) = true := by
  induction pre with
  | nil => rfl
  | cons c cs ih => simp [listPrefixAt, ih]

theorem takeWhile_append_stop (p : Char → Bool) (A B : List Char) (c : Char)
    (hA : ∀ x ∈ A, p x = true) (hc : p c = false) :
    (A ++ c :: B).takeWhile p = A ∧ (A ++ c :: B).dropWhile p = c :: B := by
  induction A with
  | nil => simp [List.takeWhile, List.dropWhile, hc]
  | cons a as ih =>
    have ha : p a = true := hA a (by simp)
    have ih2 := ih (fun x hx => hA x (by simp [hx]))
    simp only [List.cons_append, List.takeWhile_cons, List.dropWhile_cons, ha, ih2.1, ih2.2]
    simp

theorem takeWhile_all (p : Char → Bool) (A : List Char) (hA : ∀ x ∈ A, p x = true) :
    A.takeWhile p = A ∧ A.dropWhile p = [] := by
  induction A with
  | nil => simp
  | cons a as ih =>
    have ha : p a = true := hA a (by simp)
    have ih2 := ih (fun x hx => hA x (by simp [hx]))
    simp [List.takeWhile_cons, List.dropWhile_cons, ha, ih2.1, ih2.2]

theorem splitLastAt_none (sep : Char) (cs : List Char) (h : ∀ x ∈ cs, (x == sep) = false) :
    splitLastAt sep cs = none := by
  induction cs with
  | nil => rfl
  | cons c rest ih =>
    rw [splitLastAt, ih (fun x hx => h x (by simp [hx]))]
    simp [h c (by simp)]

theorem splitLastAt_append (sep : Char) (A B : List Char)
    (hB : ∀ x ∈ B, (x == sep) = false) :
    splitLastAt sep (A ++ sep :: B) = some (A, B) := by
  induction A with
  | nil =>
    rw [List.nil_append, splitLastAt, splitLastAt_none sep B hB]
    simp
  | cons a as ih =>
    rw [List.cons_append, splitLastAt, ih]

theorem splitOnP_ne_nil (sep : Char → Bool) (cs : List Char) :
    splitOnP sep cs ≠ [] := by
  cases cs with
  | nil => simp [splitOnP]
  | cons c rest =>
    rw [splitOnP]
    rcases h : splitOnP sep rest with - | ⟨r, rs⟩
    · simp
    · by_cases hc : sep c <;> simp [hc]

theorem splitOnP_append_piece (sep : Char → Bool) (A B : List Char)
    (hA : ∀ x ∈ A, sep x = false) :
    splitOnP sep (A ++ B) =
      (A ++ (splitOnP sep B).headD []) :: (splitOnP sep B).tail := by
  induction A with
  | nil =>
    simp only [List.nil_append]
    rcases h : splitOnP sep B with - | ⟨r, rs⟩
    · exact absurd h (splitOnP_ne_nil sep B)
    · simp
  | cons a as ih =>
    have ha : sep a = false := hA a (by simp)
    rw [List.cons_append, splitOnP, ih (fun x hx => hA x (by simp [hx]))]
    simp [ha]

theorem splitOnP_sep_cons (sep : Char → Bool) (c : Char) (B : List Char)
    (hc : sep c = true) :
    splitOnP sep (c :: B) = [] :: splitOnP sep B := by
  rw [splitOnP]
  rcases h : splitOnP sep B with - | ⟨r, rs⟩
  · exact absurd h (splitOnP_ne_nil sep B)
  · simp [hc]

theorem splitOnP_all_no_sep (sep : Char → Bool) (A : List Char)
    (hA : ∀ x ∈ A, sep x = false) :
    splitOnP sep A = [A] := by
  induction A with
  | nil => rfl
  | cons a as ih =>
    have ha : sep a = false := hA a (by simp)
    rw [splitOnP, ih (fun x hx => hA x (by simp [hx]))]
    simp [ha]

/-! ## Parser inversion: `parseURL` outputs are well formed -/

theorem takeWhile_head (p : Char → Bool) (l : List Char) (c : Char)
    (h : (l.takeWhile p).head? = some c) : l.head? = some c := by
  cases l with
  | nil => simp [List.takeWhile] at h
  | cons a as =>
    rw [List.takeWhile_cons] at h
    by_cases hp : p a
    · rw [if_pos hp] at h
      simp at h
      simp [h]
    · rw [if_neg hp] at h
      simp at h

theorem dropWhile_head_not (p : Char → Bool) (l : List Char) (c : Char)
    (h : (l.dropWhile p).head? = some c) : p c = false := by
  induction l with
  | nil => simp [List.dropWhile] at h
  | cons a as ih =>
    rw [List.dropWhile_cons] at h
    by_cases hp : p a
    · rw [if_pos hp] at h
      exact ih h
    · rw [if_neg hp] at h
      simp at h
      rw [← h]
      simpa using hp

theorem parseQF_inv (r1 : List Char) (q fr : Option String)
    (h : parseQF r1 = some (q, fr)) :
    (∀ q0, q = some q0 → q0.data.all isQueryChar = true) ∧
    (∀ f0, fr = some f0 → f0.data.all isFragChar = true) := by
  rw [parseQF.eq_def] at h
  split at h
  · injection h with h
    injection h with h1 h2
    subst h1 h2
    exact ⟨fun q0 hq => Option.noConfusion hq, fun f0 hf => Option.noConfusion hf⟩
  · rename_i r2
    split at h
    · rename_i hq
      split at h
      · rename_i f3 heq3
        split at h
        · rename_i hf
          injection h with h
          injection h with h1 h2
          subst h1 h2
          refine ⟨?_, ?_⟩
          · intro q0 hq0
            injection hq0 with hq0
            rw [← hq0]
            exact hq
          · intro f0 hf0
            injection hf0 with hf0
            rw [← hf0]
            exact hf
        · exact absurd h (by simp)
      · injection h with h
        injection h with h1 h2
        subst h1 h2
        refine ⟨?_, fun f0 hf => Option.noConfusion hf⟩
        intro q0 hq0
        injection hq0 with hq0
        rw [← hq0]
        exact hq
    · exact absurd h (by simp)
  · rename_i f3
    split at h
    · rename_i hf
      injection h with h
      injection h with h1 h2
      subst h1 h2
      refine ⟨fun q0 hq => Option.noConfusion hq, ?_⟩
      intro f0 hf0
      injection hf0 with hf0
      rw [← hf0]
      exact hf
    · exact absurd h (by simp)
  · exact absurd h (by simp)

theorem pathString_facts (p : List Char)
    (hall : p.all isPathChar = true)
    (hdot : ((splitOnP (fun c => c == '/') p).any
      (fun s => s == ['.'] || s == ['.', '.'])) = false)
    (hhead : ∀ c0, p.head? = some c0 → c0 = '/') :
    (pathString p).data ≠ [] ∧ (pathString p).data.head? = some '/' ∧
    (pathString p).data.all isPathChar = true ∧
    ((splitOnP (fun c => c == '/') (pathString p).data).any
      (fun s => s == ['.'] || s == ['.', '.'])) = false := by
  rw [pathString]
  cases p with
  | nil =>
    rw [if_pos (by decide)]
    exact ⟨by decide, by decide, by decide, by decide⟩
  | cons a as =>
    rw [if_neg (by simp)]
    have ha : a = '/' := hhead a rfl
    exact ⟨by simp, by simp [ha], hall, hdot⟩

theorem parsePathQF_inv (cs : List Char) (pa : String) (q fr : Option String)
    (hhead : ∀ c, cs.head? = some c → ((c == '/') || (c == '?') || (c == '#')) = true)
    (h : parsePathQF cs = some (pa, q, fr)) :
    pa.data ≠ [] ∧ pa.data.head? = some '/' ∧ pa.data.all isPathChar = true ∧
    ((splitOnP (fun c => c == '/') pa.data).any
      (fun s => s == ['.'] || s == ['.', '.'])) = false ∧
    (∀ q0, q = some q0 → q0.data.all isQueryChar = true) ∧
    (∀ f0, fr = some f0 → f0.data.all isFragChar = true) := by
  rw [parsePathQF] at h
  split at h
  · exact absurd h (by simp)
  · split at h
    · exact absurd h (by simp)
    · rename_i hallneg hdotneg
      have hall : (cs.takeWhile (fun c => !(c == '?') && !(c == '#'))).all
          isPathChar = true := by
        simpa using hallneg
      have hdot : ((splitOnP (fun c => c == '/')
          (cs.takeWhile (fun c => !(c == '?') && !(c == '#')))).any
          (fun s => s == ['.'] || s == ['.', '.'])) = false := by
        simpa using hdotneg
      split at h
      · exact absurd h (by simp)
      · rename_i qf q0 f0 heq
        injection h with h
        injection h with h1 h2
        injection h2 with h2 h3
        subst h1 h2 h3
        have hqf := parseQF_inv _ _ _ heq
        have hph : ∀ c0, (cs.takeWhile (fun c => !(c == '?') && !(c == '#'))).head?
            = some c0 → c0 = '/' := by
          intro c0 hc0
          have hcs := takeWhile_head _ cs _ hc0
          have hmem : c0 ∈ cs.takeWhile (fun c => !(c == '?') && !(c == '#')) := by
            have := List.mem_of_mem_head? hc0
            exact this
          have hpred := List.mem_takeWhile_imp hmem
          have hin := hhead _ hcs
          simp only [Bool.and_eq_true, Bool.not_eq_true'] at hpred
          simp only [Bool.or_eq_true] at hin
          rcases hin with (hin | hin) | hin
          · rwa [beq_iff_eq] at hin
          · rw [hin] at hpred
            simp at hpred
          · rw [hin] at hpred
            simp at hpred
        have hpf := pathString_facts (cs.takeWhile (fun c => !(c == '?') && !(c == '#')))
          hall hdot hph
        exact ⟨hpf.1, hpf.2.1, hpf.2.2.1, hpf.2.2.2, hqf.1, hqf.2⟩

theorem parseUserinfo_inv (cs : List Char) (u pw : String)
    (h : parseUserinfo cs = some (u, pw)) :
    u.data.all isUserChar = true ∧ pw.data.all isUserChar = true := by
  rw [parseUserinfo] at h
  split at h
  · split at h
    · rename_i hu
      injection h with h
      injection h with h1 h2
      subst h1 h2
      exact ⟨hu, by decide⟩
    · exact absurd h (by simp)
  · split at h
    · rename_i hup
      simp only [Bool.and_eq_true] at hup
      injection h with h
      injection h with h1 h2
      subst h1 h2
      exact ⟨hup.1, hup.2⟩
    · exact absurd h (by simp)

theorem parsePort_inv (scheme : String) (pr : List Char) (port : Option Nat)
    (h : parsePort scheme pr = some port) :
    ∀ n, port = some n → n ≤ 65535 ∧ ¬(scheme = "http" ∧ n = 80) ∧
      ¬(scheme = "https" ∧ n = 443) := by
  rw [parsePort] at h
  split at h
  · injection h with h
    subst h
    intro n hn
    exact Option.noConfusion hn
  · split at h
    · split at h
      · exact absurd h (by simp)
      · split at h
        · injection h with h
          subst h
          intro n hn
          exact Option.noConfusion hn
        · rename_i hbig hdef
          injection h with h
          subst h
          intro n hn
          injection hn with hn
          subst hn
          rw [Bool.not_eq_true] at hdef
          simp only [Bool.or_eq_false_iff, Bool.and_eq_false_iff] at hdef
          obtain ⟨hd1, hd2⟩ := hdef
          refine ⟨by omega, ?_, ?_⟩
          · rintro ⟨hs, hv⟩
            rcases hd1 with hd1 | hd1
            · rw [beq_eq_false_iff_ne] at hd1
              exact hd1 hs
            · rw [hv] at hd1
              simp at hd1
          · rintro ⟨hs, hv⟩
            rcases hd2 with hd2 | hd2
            · rw [beq_eq_false_iff_ne] at hd2
              exact hd2 hs
            · rw [hv] at hd2
              simp at hd2
    · exact absurd h (by simp)

theorem parseAuthority_inv (scheme : String) (auth : List Char)
    (username password host : String) (port : Option Nat)
    (h : parseAuthority scheme auth = some (username, password, host, port)) :
    username.data.all isUserChar = true ∧ password.data.all isUserChar = true ∧
    validHost host.data = true ∧ host.data.map Char.toLower = host.data ∧
    (∀ n, port = some n → n ≤ 65535 ∧ ¬(scheme = "http" ∧ n = 80) ∧
      ¬(scheme = "https" ∧ n = 443)) := by
  rw [parseAuthority] at h
  split at h
  · exact absurd h (by simp)
  · rename_i u1 p1 hui
    split at h
    · exact absurd h (by simp)
    · rename_i hostRaw portRaw hhp
      split at h
      · rename_i hvh
        have huw := parseUserinfo_inv _ _ _ hui
        split at h
        · injection h with h
          injection h with h1 h2
          injection h2 with h2 h3
          injection h3 with h3 h4
          subst h1 h2 h3 h4
          refine ⟨huw.1, huw.2, hvh, map_toLower_idem hostRaw, ?_⟩
          intro n hn
          exact Option.noConfusion hn
        · rename_i pr
          split at h
          · exact absurd h (by simp)
          · rename_i port1 hpp
            injection h with h
            injection h with h1 h2
            injection h2 with h2 h3
            injection h3 with h3 h4
            subst h1 h2 h3 h4
            exact ⟨huw.1, huw.2, hvh, map_toLower_idem hostRaw,
              parsePort_inv scheme pr _ hpp⟩
      · exact absurd h (by simp)

theorem schemeSplit_inv (cs : List Char) (scheme : String) (rest : List Char)
    (h : schemeSplit cs = some (scheme, rest)) :
    scheme = "http" ∨ scheme = "https" := by
  rw [schemeSplit] at h
  split at h
  · injection h with h
    injection h with h1 h2
    subst h1
    exact Or.inr rfl
  · split at h
    · injection h with h
      injection h with h1 h2
      subst h1
      exact Or.inl rfl
    · exact absurd h (by simp)

/-- Everything the model parser outputs is well formed. -/
theorem parseURL_wf (s : String) (p : URLRec) (h : parseURL s = some p) : WF p := by
  rw [parseURL] at h
  split at h
  · exact absurd h (by simp)
  · rename_i sch rest heq0
    split at h
    · exact absurd h (by simp)
    · rename_i u1 p1 h1 port1 heqA
      split at h
      · exact absurd h (by simp)
      · rename_i pa1 q1 f1 heqP
        injection h with h
        subst h
        have hsch := schemeSplit_inv s.data sch rest heq0
        have hauth := parseAuthority_inv sch _ u1 p1 h1 port1 heqA
        have hhead : ∀ c, (rest.dropWhile
            (fun c => !(c == '/') && !(c == '?') && !(c == '#'))).head? = some c →
            ((c == '/') || (c == '?') || (c == '#')) = true := by
          intro c hc
          have hnp := dropWhile_head_not
            (fun c => !(c == '/') && !(c == '?') && !(c == '#')) rest c hc
          cases hc1 : c == '/' <;> cases hc2 : c == '?' <;> cases hc3 : c == '#' <;>
            simp_all
        have hpath := parsePathQF_inv _ pa1 q1 f1 hhead heqP
        exact ⟨hsch, hauth.2.2.1, hauth.2.2.2.1, hauth.1, hauth.2.1,
          hauth.2.2.2.2, hpath.1, hpath.2.1, hpath.2.2.1, hpath.2.2.2.1,
          hpath.2.2.2.2.1, hpath.2.2.2.2.2⟩

/-! ## Claim C6 -/

theorem append_colon_inj (s t : String) : s ++ ":" = t ++ ":" ↔ s = t := by
  constructor
  · intro h
    have hd := congrArg String.data h
    rw [String.data_append, String.data_append] at hd
    exact congrArg String.mk (List.append_cancel_right hd)
  · rintro rfl
    rfl

theorem scheme_contains_iff (s : String) :
    (["http:", "https:"].contains (s ++ ":")) = true ↔ (s = "http" ∨ s = "https") := by
  have e1 : ("http" : String) ++ ":" = "http:" := rfl
  have e2 : ("https" : String) ++ ":" = "https:" := rfl
  constructor
  · intro h
    have hmem : s ++ ":" = "http:" ∨ s ++ ":" = "https:" := by
      simpa [List.contains] using h
    rcases hmem with hm | hm
    · exact Or.inl ((append_colon_inj s "http").1 (by rw [hm, e1]))
    · exact Or.inr ((append_colon_inj s "https").1 (by rw [hm, e2]))
  · intro h
    rcases h with rfl | rfl <;> simp [List.contains]

theorem validateUrl_valid_iff (input : String) (p : URLRec)
    (h0 : normalizeUrl input ≠ "")
    (hp : parseURL (normalizeUrl input) = some p) :
    (validateUrl input).valid = true ↔
      (["http:", "https:"].contains (p.scheme ++ ":") = true ∧
        BLOCKED_HOSTNAMES.contains (jsToLower p.host) = false ∧
        anyPrivate p.host = false ∧
        (strIncludes p.host "." = true ∨ BLOCKED_HOSTNAMES.contains p.host = true)) := by
  rw [validateUrl, if_neg h0]
  simp only [hp]
  cases hc1 : ["http:", "https:"].contains (p.scheme ++ ":") <;>
    cases hc2 : BLOCKED_HOSTNAMES.contains (jsToLower p.host) <;>
      cases hc3 : anyPrivate p.host <;>
        cases hc4 : strIncludes p.host "." <;>
          cases hc5 : BLOCKED_HOSTNAMES.contains p.host <;>
            simp only [hc1, hc2, hc3, hc4, hc5, Bool.not_true, Bool.not_false,
              Bool.and_true, Bool.and_false, Bool.true_and, Bool.false_and] <;>
            simp

/-- C6: `validateUrl` accepts exactly when normalization succeeds, the
scheme is http or https, the (lower-cased) host is not in the blocked
set, the host matches no private/link-local pattern, and the host
contains a dot; and the eight concrete examples of the claim behave as
stated (the six internal hosts reject; the two example.com forms
accept with normalized value `https://example.com`). -/
theorem C6_validate_accepts_iff :
    (∀ input : String,
      (validateUrl input).valid = true ↔
        (normalizeUrl input ≠ "" ∧ ∃ p : URLRec,
          parseURL (normalizeUrl input) = some p ∧
          (p.scheme = "http" ∨ p.scheme = "https") ∧
          BLOCKED_HOSTNAMES.contains (jsToLower p.host) = false ∧
          anyPrivate p.host = false ∧
          strIncludes p.host "." = true)) ∧
    (validateUrl "http://localhost").valid = false ∧
    (validateUrl "http://127.0.0.1").valid = false ∧
    (validateUrl "http://10.0.0.1").valid = false ∧
    (validateUrl "http://192.168.1.1").valid = false ∧
    (validateUrl "http://172.16.0.1").valid = false ∧
    (validateUrl "http://169.254.169.254").valid = false ∧
    validateUrl "https://example.com" = ⟨true, some "https://example.com", none⟩ ∧
    validateUrl "example.com" = ⟨true, some "https://example.com", none⟩ := by
  refine ⟨?_, by decide, by decide, by decide, by decide, by decide, by decide,
    by decide, by decide⟩
  intro input
  constructor
  · intro hv
    by_cases h0 : normalizeUrl input = ""
    · rw [validateUrl, if_pos h0] at hv
      cases hv
    · cases hp : parseURL (normalizeUrl input) with
      | none =>
        rw [validateUrl, if_neg h0] at hv
        simp only [hp] at hv
        cases hv
      | some p =>
        obtain ⟨hc1, hc2, hc3, hc4⟩ := (validateUrl_valid_iff input p h0 hp).1 hv
        refine ⟨h0, p, rfl, (scheme_contains_iff p.scheme).1 hc1, hc2, hc3, ?_⟩
        rcases hc4 with hdot | hblk
        · exact hdot
        · have hwf := parseURL_wf _ _ hp
          have hlow : jsToLower p.host = p.host := by
            show (⟨p.host.data.map Char.toLower⟩ : String) = p.host
            rw [hwf.2.2.1]
          rw [hlow] at hc2
          rw [hc2] at hblk
          cases hblk
  · rintro ⟨h0, p, hp, hsch, hc2, hc3, hdot⟩
    exact (validateUrl_valid_iff input p h0 hp).2
      ⟨(scheme_contains_iff p.scheme).2 hsch, hc2, hc3, Or.inl hdot⟩

/-- C6 witness: the equivalence instantiated at `"https://example.com"`. -/
theorem C6_validate_accepts_iff_witness :
    (validateUrl "https://example.com").valid = true ↔
      (normalizeUrl "https://example.com" ≠ "" ∧ ∃ p : URLRec,
        parseURL (normalizeUrl "https://example.com") = some p ∧
        (p.scheme = "http" ∨ p.scheme = "https") ∧
        BLOCKED_HOSTNAMES.contains (jsToLower p.host) = false ∧
        anyPrivate p.host = false ∧
        strIncludes p.host "." = true) :=
  C6_validate_accepts_iff.1 "https://example.com"

/-! ## Serialization structure -/

theorem serializeURL_data (u : URLRec) :
    (serializeURL u).data = u.scheme.data ++ (':' :: '/' :: '/' ::
      (uiChars u ++ (u.host.data ++ (portChars u ++
        (u.path.data ++ (qChars u ++ fChars u)))))) := by
  have h1 : ("://" : String).data = [':', '/', '/'] := rfl
  have h2 : ("" : String).data = [] := rfl
  have h3 : (":" : String).data = [':'] := rfl
  have h4 : ("@" : String).data = ['@'] := rfl
  have h5 : ("?" : String).data = ['?'] := rfl
  have h6 : ("#" : String).data = ['#'] := rfl
  rcases hport : u.port with - | n <;> rcases hq : u.query with - | qq <;>
    rcases hf : u.fragment with - | ff <;>
      by_cases hui : u.username = "" ∧ u.password = "" <;>
        by_cases hpw : u.password = "" <;>
          by_cases hun : u.username = "" <;>
            simp [serializeURL, uiChars, portChars, qChars, fChars, hport, hq, hf, hui,
              hpw, hun, String.data_append, natStr, h1, h2, h3, h4, h5, h6,
              List.append_assoc]

/-! ## Character-class safety -/

theorem charle_toNat {c d : Char} (h : c ≤ d) : c.toNat ≤ d.toNat := by
  rw [Char.le_def, UInt32.le_def, BitVec.le_def] at h
  exact h

theorem hexlower_isHostChar (c : Char) (h : ('a' ≤ c && c ≤ 'f') = true) :
    isHostChar c = true := by
  simp only [Bool.and_eq_true, decide_eq_true_eq] at h
  have h1 := charle_toNat h.1
  have h2 := charle_toNat h.2
  have ha : ('a').toNat = 97 := rfl
  have hb : ('f').toNat = 102 := rfl
  rw [ha] at h1
  rw [hb] at h2
  have hlow : c.isLower = true := by
    simp only [Char.isLower, Bool.and_eq_true, decide_eq_true_eq, ge_iff_le,
      UInt32.le_def, BitVec.le_def]
    exact ⟨h1, show c.toNat ≤ 122 by omega⟩
  simp [isHostChar, Char.isAlpha, hlow]

/-- Structure of a valid bracketed host. -/
theorem bracketHost_shape (cs : List Char) (h : validBracketHost cs = true) :
    cs = '[' :: ((cs.drop 1).dropLast ++ [']']) ∧
    (cs.drop 1).dropLast ≠ [] ∧
    ((cs.drop 1).dropLast.all
      (fun c => c.isDigit || ('a' ≤ c && c ≤ 'f') || c == ':')) = true := by
  rw [validBracketHost] at h
  simp only [Bool.and_eq_true, beq_iff_eq, Bool.not_eq_true'] at h
  obtain ⟨⟨⟨hhead, hlast⟩, hne⟩, hall⟩ := h
  rcases cs with - | ⟨c0, t⟩
  · cases hhead
  · simp only [List.head?_cons, Option.some.injEq] at hhead
    subst hhead
    simp only [List.drop_succ_cons, List.drop_zero] at hne hall ⊢
    have hne2 : t.dropLast ≠ [] := by
      intro hc
      rw [hc] at hne
      cases hne
    have htne : t ≠ [] := by
      intro hc
      rw [hc] at hne2
      exact hne2 rfl
    obtain ⟨ys, hys⟩ := List.getLast?_eq_some_iff.1 hlast
    rcases ys with - | ⟨y0, ys'⟩
    · rw [List.nil_append] at hys
      injection hys with hy1 hy2
      exact absurd hy2 htne
    · rw [List.cons_append] at hys
      injection hys with hy1 hy2
      subst hy1
      subst hy2
      rw [List.dropLast_concat] at hne2 hall ⊢
      exact ⟨rfl, hne2, hall⟩

/-- Every character a valid host can contain. -/
theorem validHost_chars (cs : List Char) (h : validHost cs = true) :
    ∀ c ∈ cs, (isHostChar c || c == '[' || c == ']' || c == ':') = true := by
  rw [validHost, Bool.or_eq_true] at h
  rcases h with h | h
  · intro c hc
    rw [validHostCore] at h
    simp only [Bool.and_eq_true] at h
    have := List.all_eq_true.1 h.1.1.2 c hc
    simp [this]
  · obtain ⟨hshape, hne, hall⟩ := bracketHost_shape cs h
    intro c hc
    rw [hshape] at hc
    simp only [List.mem_cons, List.mem_append, List.mem_singleton, List.not_mem_nil,
      or_false] at hc
    rcases hc with rfl | hc | rfl
    · decide
    · have := List.all_eq_true.1 hall c hc
      simp only [Bool.or_eq_true] at this
      rcases this with (hd | hd) | hd
      · simp [isHostChar, hd]
      · simp [hexlower_isHostChar c hd]
      · simp [hd]
    · decide

/-! ## Forward parsing of serializations: generic helpers -/

theorem str_ext {s t : String} (h : s.data = t.data) : s = t := by
  cases s
  cases t
  exact congrArg String.mk h

theorem ws_false_of_class (P : Char → Bool) (hsp : P ' ' = false)
    (hta : P '\t' = false) (hcr : P '\r' = false) (hlf : P '\n' = false)
    {c : Char} (hc : P c = true) : c.isWhitespace = false := by
  cases hw : c.isWhitespace
  · rfl
  · exfalso
    simp only [Char.isWhitespace, Bool.or_eq_true, decide_eq_true_eq] at hw
    rcases hw with ((rfl | rfl) | rfl) | rfl <;> simp_all

theorem dropWhile_eq_self_of_all (p : Char → Bool) (l : List Char)
    (h : ∀ c ∈ l, p c = false) : l.dropWhile p = l := by
  cases l with
  | nil => rfl
  | cons a as =>
    rw [List.dropWhile_cons, h a (List.mem_cons_self a as)]
    simp

theorem jsTrim_of_no_ws (s : String) (h : ∀ c ∈ s.data, c.isWhitespace = false) :
    jsTrim s = s := by
  rw [jsTrim, dropWhile_eq_self_of_all _ _ h,
    dropWhile_eq_self_of_all _ _ (fun c hc => h c (List.mem_reverse.1 hc)),
    List.reverse_reverse]

theorem listSubstr_embed (pat A B : List Char) :
    listSubstr pat (A ++ (pat ++ B)) = true := by
  induction A with
  | nil =>
    rw [List.nil_append]
    cases hp : pat with
    | nil =>
      cases B with
      | nil => rfl
      | cons b bs => simp [listSubstr, listPrefixAt]
    | cons q qs =>
      rw [List.cons_append, listSubstr]
      have hpre := listPrefixAt_self_append (q :: qs) B
      rw [List.cons_append] at hpre
      rw [hpre]
      simp
  | cons a as ih =>
    rw [List.cons_append, listSubstr, ih]
    simp

theorem listSubstr_single_false (x : Char) (l : List Char)
    (h : ∀ c ∈ l, (x == c) = false) : listSubstr [x] l = false := by
  induction l with
  | nil => rfl
  | cons a as ih =>
    rw [listSubstr, ih (fun c hc => h c (List.mem_cons_of_mem a hc))]
    simp [listPrefixAt, h a (List.mem_cons_self a as)]

theorem map_toLower_scheme (s : String) (hs : s = "http" ∨ s = "https") (R : List Char) :
    (s.data ++ ':' :: '/' :: '/' :: R).map Char.toLower =
      s.data ++ ':' :: '/' :: '/' :: R.map Char.toLower := by
  rcases hs with rfl | rfl <;>
    simp only [show ("http" : String).data = ['h', 't', 't', 'p'] from rfl,
      show ("https" : String).data = ['h', 't', 't', 'p', 's'] from rfl,
      List.cons_append, List.nil_append, List.map_cons,
      show Char.toLower 'h' = 'h' from rfl, show Char.toLower 't' = 't' from rfl,
      show Char.toLower 'p' = 'p' from rfl, show Char.toLower 's' = 's' from rfl,
      show Char.toLower ':' = ':' from rfl, show Char.toLower '/' = '/' from rfl]

theorem listPrefixAt_https_httpdata (L : List Char) :
    listPrefixAt ("https://").data (("http").data ++ ':' :: '/' :: '/' :: L) = false := by
  show listPrefixAt
    ('h' :: 't' :: 't' :: 'p' :: 's' :: ':' :: '/' :: '/' :: ([] : List Char))
    ('h' :: 't' :: 't' :: 'p' :: ':' :: '/' :: '/' :: L) = false
  simp +decide [listPrefixAt]

theorem schemeSplit_ser (s : String) (hs : s = "http" ∨ s = "https") (R : List Char) :
    schemeSplit (s.data ++ ':' :: '/' :: '/' :: R) = some (s, R) := by
  rw [schemeSplit, map_toLower_scheme s hs R]
  rcases hs with rfl | rfl
  · rw [listPrefixAt_https_httpdata, if_neg (by decide)]
    have h1 : listPrefixAt ("http://").data
        (("http" : String).data ++ ':' :: '/' :: '/' :: R.map Char.toLower) = true :=
      listPrefixAt_self_append _ _
    rw [h1, if_pos rfl]
    rfl
  · have h1 : listPrefixAt ("https://").data
        (("https" : String).data ++ ':' :: '/' :: '/' :: R.map Char.toLower) = true :=
      listPrefixAt_self_append _ _
    rw [h1, if_pos rfl]
    rfl

theorem hasHttpScheme_cons (s : String) (hs : s = "http" ∨ s = "https") (R : List Char) :
    hasHttpScheme ⟨s.data ++ ':' :: '/' :: '/' :: R⟩ = true := by
  rw [hasHttpScheme]
  show (listPrefixAt ("http://").data ((s.data ++ ':' :: '/' :: '/' :: R).map Char.toLower) ||
    listPrefixAt ("https://").data ((s.data ++ ':' :: '/' :: '/' :: R).map Char.toLower)) = true
  rw [map_toLower_scheme s hs R]
  rcases hs with rfl | rfl
  · have h1 : listPrefixAt ("http://").data
        (("http" : String).data ++ ':' :: '/' :: '/' :: R.map Char.toLower) = true :=
      listPrefixAt_self_append _ _
    rw [h1, Bool.true_or]
  · have h1 : listPrefixAt ("https://").data
        (("https" : String).data ++ ':' :: '/' :: '/' :: R.map Char.toLower) = true :=
      listPrefixAt_self_append _ _
    rw [h1, Bool.or_true]

/-! ## Character classes of the serialization regions -/

theorem uiChars_class (u : URLRec) (hun : u.username.data.all isUserChar = true)
    (hpw : u.password.data.all isUserChar = true) :
    ∀ c ∈ uiChars u, (isUserChar c || c == ':' || c == '@') = true := by
  intro c hc
  rw [uiChars] at hc
  by_cases hui : u.username = "" ∧ u.password = ""
  · rw [if_pos hui] at hc
    cases hc
  · rw [if_neg hui] at hc
    simp only [List.mem_append, List.mem_cons, List.not_mem_nil, or_false] at hc
    rcases hc with (hc | hc) | rfl
    · simp [List.all_eq_true.1 hun c hc]
    · by_cases hp : u.password = ""
      · rw [if_pos hp] at hc
        cases hc
      · rw [if_neg hp] at hc
        rcases List.mem_cons.1 hc with rfl | hc
        · simp
        · simp [List.all_eq_true.1 hpw c hc]
    · simp

theorem portChars_class (u : URLRec) :
    ∀ c ∈ portChars u, (c.isDigit || c == ':') = true := by
  intro c hc
  rw [portChars] at hc
  rcases hp : u.port with - | n
  · rw [hp] at hc
    cases hc
  · rw [hp] at hc
    rcases List.mem_cons.1 hc with rfl | hc
    · simp
    · simp [List.all_eq_true.1 (natChars_digits n) c hc]

theorem qChars_class (u : URLRec)
    (hq : ∀ q, u.query = some q → q.data.all isQueryChar = true) :
    ∀ c ∈ qChars u, isQueryChar c = true := by
  intro c hc
  rw [qChars] at hc
  rcases hqq : u.query with - | q
  · rw [hqq] at hc
    cases hc
  · rw [hqq] at hc
    rcases List.mem_cons.1 hc with rfl | hc
    · decide
    · exact List.all_eq_true.1 (hq q hqq) c hc

theorem fChars_class (u : URLRec)
    (hf : ∀ f, u.fragment = some f → f.data.all isFragChar = true) :
    ∀ c ∈ fChars u, isFragChar c = true := by
  intro c hc
  rw [fChars] at hc
  rcases hff : u.fragment with - | f
  · rw [hff] at hc
    cases hc
  · rw [hff] at hc
    rcases List.mem_cons.1 hc with rfl | hc
    · decide
    · exact List.all_eq_true.1 (hf f hff) c hc

theorem host_ne_nil (H : List Char) (h : validHost H = true) : H ≠ [] := by
  intro hnil
  subst hnil
  exact absurd h (by decide)

theorem coreChars_cases (u : URLRec) (hun : u.username.data.all isUserChar = true)
    (hpw : u.password.data.all isUserChar = true) (hhost : validHost u.host.data = true) :
    ∀ c ∈ coreChars u, isUserChar c = true ∨ isHostChar c = true ∨ c.isDigit = true ∨
      c = ':' ∨ c = '@' ∨ c = '[' ∨ c = ']' := by
  intro c hc
  rw [coreChars] at hc
  rcases List.mem_append.1 hc with hc | hc
  · have := uiChars_class u hun hpw c hc
    simp only [Bool.or_eq_true, beq_iff_eq] at this
    tauto
  · rcases List.mem_append.1 hc with hc | hc
    · have := validHost_chars u.host.data hhost c hc
      simp only [Bool.or_eq_true, beq_iff_eq] at this
      tauto
    · have := portChars_class u c hc
      simp only [Bool.or_eq_true, beq_iff_eq] at this
      tauto

theorem coreChars_auth_pred (u : URLRec) (hun : u.username.data.all isUserChar = true)
    (hpw : u.password.data.all isUserChar = true) (hhost : validHost u.host.data = true) :
    ∀ c ∈ coreChars u, (!(c == '/') && !(c == '?') && !(c == '#')) = true := by
  intro c hc
  rcases coreChars_cases u hun hpw hhost c hc with h | h | h | rfl | rfl | rfl | rfl
  · simp [beq_false_of_pred h (show isUserChar '/' = false by decide),
      beq_false_of_pred h (show isUserChar '?' = false by decide),
      beq_false_of_pred h (show isUserChar '#' = false by decide)]
  · simp [beq_false_of_pred h (show isHostChar '/' = false by decide),
      beq_false_of_pred h (show isHostChar '?' = false by decide),
      beq_false_of_pred h (show isHostChar '#' = false by decide)]
  · simp [beq_false_of_pred h (show Char.isDigit '/' = false by decide),
      beq_false_of_pred h (show Char.isDigit '?' = false by decide),
      beq_false_of_pred h (show Char.isDigit '#' = false by decide)]
  · decide
  · decide
  · decide
  · decide

theorem coreChars_no_slash (u : URLRec) (hun : u.username.data.all isUserChar = true)
    (hpw : u.password.data.all isUserChar = true) (hhost : validHost u.host.data = true) :
    ∀ c ∈ coreChars u, (c == '/') = false := by
  intro c hc
  have := coreChars_auth_pred u hun hpw hhost c hc
  simp only [Bool.and_eq_true, Bool.not_eq_true'] at this
  exact this.1.1

theorem coreChars_no_ws (u : URLRec) (hun : u.username.data.all isUserChar = true)
    (hpw : u.password.data.all isUserChar = true) (hhost : validHost u.host.data = true) :
    ∀ c ∈ coreChars u, c.isWhitespace = false := by
  intro c hc
  rcases coreChars_cases u hun hpw hhost c hc with h | h | h | rfl | rfl | rfl | rfl
  · exact ws_false_of_class isUserChar (by decide) (by decide) (by decide) (by decide) h
  · exact ws_false_of_class isHostChar (by decide) (by decide) (by decide) (by decide) h
  · exact ws_false_of_class Char.isDigit (by decide) (by decide) (by decide) (by decide) h
  · decide
  · decide
  · decide
  · decide

theorem hostport_no_at (u : URLRec) (hhost : validHost u.host.data = true) :
    ∀ c ∈ u.host.data ++ portChars u, (c == '@') = false := by
  intro c hc
  rcases List.mem_append.1 hc with hc | hc
  · have := validHost_chars u.host.data hhost c hc
    simp only [Bool.or_eq_true, beq_iff_eq] at this
    rcases this with ((h | rfl) | rfl) | rfl
    · exact beq_false_of_pred h (by decide)
    · decide
    · decide
    · decide
  · have := portChars_class u c hc
    simp only [Bool.or_eq_true, beq_iff_eq] at this
    rcases this with h | rfl
    · exact beq_false_of_pred h (by decide)
    · decide

theorem ser_no_ws (u : URLRec) (h : WF u) :
    ∀ c ∈ (serializeURL u).data, c.isWhitespace = false := by
  obtain ⟨hs, hhost, hlow, hun, hpw, hport, hpne, hphead, hpall, hpdot, hq, hf⟩ := h
  intro c hc
  rw [serializeURL_data] at hc
  rcases List.mem_append.1 hc with hc | hc
  · have hws : ∀ x ∈ u.scheme.data, Char.isWhitespace x = false := by
      rcases hs with hsch | hsch <;> rw [hsch] <;> decide
    exact hws c hc
  · rcases List.mem_cons.1 hc with rfl | hc
    · decide
    rcases List.mem_cons.1 hc with rfl | hc
    · decide
    rcases List.mem_cons.1 hc with rfl | hc
    · decide
    rcases List.mem_append.1 hc with hc | hc
    · rcases coreChars_cases u hun hpw hhost c (by rw [coreChars]; exact List.mem_append.2 (Or.inl hc))
        with h | h | h | rfl | rfl | rfl | rfl
      · exact ws_false_of_class isUserChar (by decide) (by decide) (by decide) (by decide) h
      · exact ws_false_of_class isHostChar (by decide) (by decide) (by decide) (by decide) h
      · exact ws_false_of_class Char.isDigit (by decide) (by decide) (by decide) (by decide) h
      · decide
      · decide
      · decide
      · decide
    rcases List.mem_append.1 hc with hc | hc
    · rcases coreChars_cases u hun hpw hhost c
          (by rw [coreChars]; exact List.mem_append.2 (Or.inr (List.mem_append.2 (Or.inl hc))))
        with h | h | h | rfl | rfl | rfl | rfl
      · exact ws_false_of_class isUserChar (by decide) (by decide) (by decide) (by decide) h
      · exact ws_false_of_class isHostChar (by decide) (by decide) (by decide) (by decide) h
      · exact ws_false_of_class Char.isDigit (by decide) (by decide) (by decide) (by decide) h
      · decide
      · decide
      · decide
      · decide
    rcases List.mem_append.1 hc with hc | hc
    · rcases coreChars_cases u hun hpw hhost c
          (by rw [coreChars]; exact List.mem_append.2 (Or.inr (List.mem_append.2 (Or.inr hc))))
        with h | h | h | rfl | rfl | rfl | rfl
      · exact ws_false_of_class isUserChar (by decide) (by decide) (by decide) (by decide) h
      · exact ws_false_of_class isHostChar (by decide) (by decide) (by decide) (by decide) h
      · exact ws_false_of_class Char.isDigit (by decide) (by decide) (by decide) (by decide) h
      · decide
      · decide
      · decide
      · decide
    rcases List.mem_append.1 hc with hc | hc
    · exact ws_false_of_class isPathChar (by decide) (by decide) (by decide) (by decide)
        (List.all_eq_true.1 hpall c hc)
    rcases List.mem_append.1 hc with hc | hc
    · exact ws_false_of_class isQueryChar (by decide) (by decide) (by decide) (by decide)
        (qChars_class u hq c hc)
    · exact ws_false_of_class isFragChar (by decide) (by decide) (by decide) (by decide)
        (fChars_class u hf c hc)


/-! ## Forward computation of the authority parser on serialized text -/

theorem splitHostPort_nb_none (H : List Char) (hH : ∀ x ∈ H, (x == ':') = false)
    (hhd : ∀ t, H ≠ '[' :: t) : splitHostPort H = some (H, none) := by
  rw [splitHostPort.eq_def]
  split
  · rename_i t
    exact absurd rfl (hhd t)
  · have hall := takeWhile_all (fun c => !(c == ':')) H
      (fun x hx => by simp [hH x hx])
    rw [hall.2, hall.1]

theorem splitHostPort_nb_port (H d : List Char) (hH : ∀ x ∈ H, (x == ':') = false)
    (hhd : ∀ t, H ≠ '[' :: t) :
    splitHostPort (H ++ ':' :: d) = some (H, some d) := by
  rw [splitHostPort.eq_def]
  split
  · rename_i t heq
    cases H with
    | nil =>
      rw [List.nil_append] at heq
      injection heq with h1 h2
      cases h1
    | cons a tl =>
      rw [List.cons_append] at heq
      injection heq with h1 h2
      subst h1
      exact absurd rfl (hhd tl)
  · have hstop := takeWhile_append_stop (fun c => !(c == ':')) H d ':'
      (fun x hx => by simp [hH x hx]) (by decide)
    rw [hstop.2, hstop.1]

theorem splitHostPort_br_none (inner : List Char)
    (hin : ∀ x ∈ inner, (x == ']') = false) :
    splitHostPort ('[' :: (inner ++ [']'])) = some ('[' :: (inner ++ [']']), none) := by
  have hstop := takeWhile_append_stop (fun c => !(c == ']')) inner [] ']'
    (fun x hx => by simp [hin x hx]) (by decide)
  rw [splitHostPort]
  rw [List.takeWhile_cons, List.dropWhile_cons]
  rw [show ((!('[' == ']')) = true) from rfl, if_pos rfl, if_pos rfl]
  rw [hstop.2, hstop.1]
  rfl

theorem splitHostPort_br_port (inner d : List Char)
    (hin : ∀ x ∈ inner, (x == ']') = false) :
    splitHostPort (('[' :: (inner ++ [']'])) ++ ':' :: d) =
      some ('[' :: (inner ++ [']']), some d) := by
  have hstop := takeWhile_append_stop (fun c => !(c == ']')) inner (':' :: d) ']'
    (fun x hx => by simp [hin x hx]) (by decide)
  rw [List.cons_append, List.append_assoc, List.singleton_append]
  rw [splitHostPort]
  rw [List.takeWhile_cons, List.dropWhile_cons]
  rw [show ((!('[' == ']')) = true) from rfl, if_pos rfl, if_pos rfl]
  rw [hstop.2, hstop.1]
  rfl

theorem splitHostPort_host (H : List Char) (hv : validHost H = true) :
    splitHostPort H = some (H, none) ∧
    ∀ d, splitHostPort (H ++ ':' :: d) = some (H, some d) := by
  rw [validHost, Bool.or_eq_true] at hv
  rcases hv with hv | hv
  · rw [validHostCore] at hv
    simp only [Bool.and_eq_true] at hv
    have hHchars : ∀ x ∈ H, isHostChar x = true := List.all_eq_true.1 hv.1.1.2
    have hnc : ∀ x ∈ H, (x == ':') = false := fun x hx =>
      beq_false_of_pred (hHchars x hx) (by decide)
    have hhd : ∀ t, H ≠ '[' :: t := by
      intro t hEq
      have := hHchars '[' (by rw [hEq]; exact List.mem_cons_self _ _)
      exact absurd this (by decide)
    exact ⟨splitHostPort_nb_none H hnc hhd, fun d => splitHostPort_nb_port H d hnc hhd⟩
  · obtain ⟨hshape, hne, hall⟩ := bracketHost_shape H hv
    have hin : ∀ x ∈ (H.drop 1).dropLast, (x == ']') = false := by
      intro x hx
      have hcl := List.all_eq_true.1 hall x hx
      cases hxx : x == ']'
      · rfl
      · rw [beq_iff_eq] at hxx
        subst hxx
        exact absurd hcl (by decide)
    constructor
    · rw [hshape]
      exact splitHostPort_br_none _ hin
    · intro d
      rw [hshape]
      exact splitHostPort_br_port _ d hin

theorem parsePort_natChars (scheme : String) (n : Nat) (hle : n ≤ 65535)
    (h80 : ¬(scheme = "http" ∧ n = 80)) (h443 : ¬(scheme = "https" ∧ n = 443)) :
    parsePort scheme (natChars n) = some (some n) := by
  rw [parsePort]
  rw [if_neg (by simp only [List.isEmpty_iff]; exact natChars_ne_nil n)]
  rw [natChars_digits n, if_pos rfl, digitsVal_natChars]
  rw [if_neg (by omega)]
  have hdef : ((scheme == "http" && n == 80) || (scheme == "https" && n == 443)) = false := by
    rw [Bool.or_eq_false_iff, Bool.and_eq_false_iff, Bool.and_eq_false_iff]
    constructor
    · by_cases hsch : scheme = "http"
      · exact Or.inr (beq_eq_false_iff_ne.2 fun hn => h80 ⟨hsch, hn⟩)
      · exact Or.inl (beq_eq_false_iff_ne.2 hsch)
    · by_cases hsch : scheme = "https"
      · exact Or.inr (beq_eq_false_iff_ne.2 fun hn => h443 ⟨hsch, hn⟩)
      · exact Or.inl (beq_eq_false_iff_ne.2 hsch)
  rw [hdef, if_neg (by decide)]

theorem parseUserinfo_ser (un pw : String) (hun : un.data.all isUserChar = true)
    (hpw : pw.data.all isUserChar = true) :
    parseUserinfo (un.data ++ (if pw = "" then [] else ':' :: pw.data)) = some (un, pw) := by
  have hunc : ∀ x ∈ un.data, (fun c => !(c == ':')) x = true := fun x hx => by
    simp [beq_false_of_pred (List.all_eq_true.1 hun x hx)
      (show isUserChar ':' = false by decide)]
  by_cases hp : pw = ""
  · rw [if_pos hp, List.append_nil]
    simp only [parseUserinfo]
    have hall := takeWhile_all (fun c => !(c == ':')) un.data hunc
    rw [hall.2, hall.1]
    show (if (un.data.all isUserChar) = true then some ((⟨un.data⟩ : String), "") else none) =
      some (un, pw)
    rw [hun, if_pos rfl, hp]
  · rw [if_neg hp]
    simp only [parseUserinfo]
    have hstop := takeWhile_append_stop (fun c => !(c == ':')) un.data pw.data ':'
      hunc (by decide)
    rw [hstop.2, hstop.1]
    show (if (un.data.all isUserChar && pw.data.all isUserChar) = true then
      some ((⟨un.data⟩ : String), (⟨pw.data⟩ : String)) else none) = some (un, pw)
    rw [hun, hpw]
    rfl

theorem parseAuthority_ser (u : URLRec) (hs : u.scheme = "http" ∨ u.scheme = "https")
    (hun : u.username.data.all isUserChar = true)
    (hpw : u.password.data.all isUserChar = true)
    (hhost : validHost u.host.data = true)
    (hlow : u.host.data.map Char.toLower = u.host.data)
    (hport : ∀ n, u.port = some n → n ≤ 65535 ∧
      ¬(u.scheme = "http" ∧ n = 80) ∧ ¬(u.scheme = "https" ∧ n = 443)) :
    parseAuthority u.scheme (coreChars u) = some (u.username, u.password, u.host, u.port) := by
  have hmk : (⟨u.host.data⟩ : String) = u.host := rfl
  have hhp := splitHostPort_host u.host.data hhost
  have hpu0 : parseUserinfo ([] : List Char) = some ("", "") := rfl
  have hpuis := parseUserinfo_ser u.username u.password hun hpw
  by_cases hui : u.username = "" ∧ u.password = ""
  · have huiP : uiChars u = [] := by rw [uiChars, if_pos hui]
    have hcoreE : coreChars u = u.host.data ++ portChars u := by
      rw [coreChars, huiP, List.nil_append]
    rcases hpo : u.port with - | n
    · have hpc : portChars u = [] := by rw [portChars, hpo]
      rw [hcoreE, hpc, List.append_nil]
      have hsplit : splitLastAt '@' u.host.data = none :=
        splitLastAt_none '@' _ (fun x hx =>
          hostport_no_at u hhost x (List.mem_append.2 (Or.inl hx)))
      simp only [parseAuthority, hsplit, hpu0, hhp.1]
      rw [hlow, hhost, if_pos rfl, hmk, hui.1, hui.2]
    · have hpc : portChars u = ':' :: natChars n := by rw [portChars, hpo]
      rw [hcoreE, hpc]
      have hsplit : splitLastAt '@' (u.host.data ++ ':' :: natChars n) = none := by
        apply splitLastAt_none
        intro x hx
        have : x ∈ u.host.data ++ portChars u := by rw [hpc]; exact hx
        exact hostport_no_at u hhost x this
      simp only [parseAuthority, hsplit, hpu0, hhp.2 (natChars n)]
      obtain ⟨hle, h80, h443⟩ := hport n hpo
      rw [hlow, hhost, if_pos rfl]
      simp only [parsePort_natChars u.scheme n hle h80 h443]
      rw [hmk, hui.1, hui.2]
  · have huiP : uiChars u = (u.username.data ++
        (if u.password = "" then [] else ':' :: u.password.data)) ++ ['@'] := by
      rw [uiChars, if_neg hui]
    have hcoreE : coreChars u = (u.username.data ++
        (if u.password = "" then [] else ':' :: u.password.data)) ++
        '@' :: (u.host.data ++ portChars u) := by
      rw [coreChars, huiP, List.append_assoc, List.singleton_append]
    rw [hcoreE]
    have hsplit : splitLastAt '@' ((u.username.data ++
        (if u.password = "" then [] else ':' :: u.password.data)) ++
        '@' :: (u.host.data ++ portChars u)) = some (u.username.data ++
        (if u.password = "" then [] else ':' :: u.password.data),
        u.host.data ++ portChars u) :=
      splitLastAt_append '@' _ _ (hostport_no_at u hhost)
    simp only [parseAuthority, hsplit, hpuis]
    rcases hpo : u.port with - | n
    · have hpc : portChars u = [] := by rw [portChars, hpo]
      rw [hpc, List.append_nil]
      simp only [hhp.1]
      rw [hlow, hhost, if_pos rfl, hmk]
    · have hpc : portChars u = ':' :: natChars n := by rw [portChars, hpo]
      rw [hpc]
      simp only [hhp.2 (natChars n)]
      obtain ⟨hle, h80, h443⟩ := hport n hpo
      rw [hlow, hhost, if_pos rfl]
      simp only [parsePort_natChars u.scheme n hle h80 h443]


/-! ## Forward computation of the path/query/fragment parser -/

theorem parseQF_q (q : String) (hq : q.data.all isQueryChar = true) :
    parseQF ('?' :: q.data) = some (some q, none) := by
  have hqnh : ∀ x ∈ q.data, (fun c => !(c == '#')) x = true := fun x hx => by
    simp [beq_false_of_pred (List.all_eq_true.1 hq x hx)
      (show isQueryChar '#' = false by decide)]
  have hall := takeWhile_all (fun c => !(c == '#')) q.data hqnh
  simp only [parseQF]
  rw [hall.1, hall.2, hq, if_pos rfl]

theorem parseQF_qf (q f : String) (hq : q.data.all isQueryChar = true)
    (hf : f.data.all isFragChar = true) :
    parseQF ('?' :: (q.data ++ '#' :: f.data)) = some (some q, some f) := by
  have hqnh : ∀ x ∈ q.data, (fun c => !(c == '#')) x = true := fun x hx => by
    simp [beq_false_of_pred (List.all_eq_true.1 hq x hx)
      (show isQueryChar '#' = false by decide)]
  have hstop := takeWhile_append_stop (fun c => !(c == '#')) q.data f.data '#' hqnh (by decide)
  simp only [parseQF]
  rw [hstop.1, hstop.2, hq, if_pos rfl]
  show (if (f.data.all isFragChar) = true then
    some (some (⟨q.data⟩ : String), some (⟨f.data⟩ : String)) else none) = some (some q, some f)
  rw [hf, if_pos rfl]

theorem parseQF_f (f : String) (hf : f.data.all isFragChar = true) :
    parseQF ('#' :: f.data) = some (none, some f) := by
  simp only [parseQF]
  rw [hf, if_pos rfl]

theorem parsePathQF_ser (u : URLRec) (hpne : u.path.data ≠ [])
    (hpall : u.path.data.all isPathChar = true)
    (hpdot : ((splitOnP (fun c => c == '/') u.path.data).any
      (fun s => s == ['.'] || s == ['.', '.'])) = false)
    (hq : ∀ q, u.query = some q → q.data.all isQueryChar = true)
    (hf : ∀ f, u.fragment = some f → f.data.all isFragChar = true) :
    parsePathQF (u.path.data ++ (qChars u ++ fChars u)) =
      some (u.path, u.query, u.fragment) := by
  have hpredP : ∀ x ∈ u.path.data, (fun c => !(c == '?') && !(c == '#')) x = true :=
    fun x hx => by
      simp [beq_false_of_pred (List.all_eq_true.1 hpall x hx)
          (show isPathChar '?' = false by decide),
        beq_false_of_pred (List.all_eq_true.1 hpall x hx)
          (show isPathChar '#' = false by decide)]
  have hpe : ¬(u.path.data.isEmpty = true) := by
    simp only [List.isEmpty_iff]
    exact hpne
  rcases hqq : u.query with - | q <;> rcases hff : u.fragment with - | f
  · have hqc : qChars u = [] := by rw [qChars, hqq]
    have hfc : fChars u = [] := by rw [fChars, hff]
    rw [hqc, hfc, List.append_nil, List.append_nil]
    have hall := takeWhile_all _ u.path.data hpredP
    rw [parsePathQF, hall.1, hall.2, hpall, hpdot, if_neg (by decide), if_neg (by decide)]
    show some (pathString u.path.data, (none : Option String), (none : Option String)) =
      some (u.path, none, none)
    rw [pathString, if_neg hpe]
  · have hqc : qChars u = [] := by rw [qChars, hqq]
    have hfc : fChars u = '#' :: f.data := by rw [fChars, hff]
    rw [hqc, hfc, List.nil_append]
    have hstop := takeWhile_append_stop _ u.path.data f.data '#' hpredP (by decide)
    rw [parsePathQF, hstop.1, hstop.2, hpall, hpdot, if_neg (by decide), if_neg (by decide)]
    rw [parseQF_f f (hf f hff)]
    show some (pathString u.path.data, (none : Option String), some f) =
      some (u.path, none, some f)
    rw [pathString, if_neg hpe]
  · have hqc : qChars u = '?' :: q.data := by rw [qChars, hqq]
    have hfc : fChars u = [] := by rw [fChars, hff]
    rw [hqc, hfc, List.append_nil]
    have hstop := takeWhile_append_stop _ u.path.data q.data '?' hpredP (by decide)
    rw [parsePathQF, hstop.1, hstop.2, hpall, hpdot, if_neg (by decide), if_neg (by decide)]
    rw [parseQF_q q (hq q hqq)]
    show some (pathString u.path.data, some q, (none : Option String)) =
      some (u.path, some q, none)
    rw [pathString, if_neg hpe]
  · have hqc : qChars u = '?' :: q.data := by rw [qChars, hqq]
    have hfc : fChars u = '#' :: f.data := by rw [fChars, hff]
    rw [hqc, hfc, List.cons_append]
    have hstop := takeWhile_append_stop _ u.path.data (q.data ++ '#' :: f.data) '?'
      hpredP (by decide)
    rw [parsePathQF, hstop.1, hstop.2, hpall, hpdot, if_neg (by decide), if_neg (by decide)]
    rw [parseQF_qf q f (hq q hqq) (hf f hff)]
    show some (pathString u.path.data, some q, some f) = some (u.path, some q, some f)
    rw [pathString, if_neg hpe]

/-! ## The parse/serialize round trip -/

theorem parseURL_ser (u : URLRec) (h : WF u) : parseURL (serializeURL u) = some u := by
  obtain ⟨hs, hhost, hlow, hun, hpw, hport, hpne, hphead, hpall, hpdot, hq, hf⟩ := h
  obtain ⟨pt, hpt⟩ : ∃ pt, u.path.data = '/' :: pt := by
    cases hpd : u.path.data with
    | nil => exact absurd hpd hpne
    | cons a t =>
      rw [hpd] at hphead
      simp only [List.head?_cons, Option.some.injEq] at hphead
      exact ⟨t, by rw [hphead]⟩
  have hdata : (serializeURL u).data = u.scheme.data ++ ':' :: '/' :: '/' ::
      (coreChars u ++ ('/' :: (pt ++ (qChars u ++ fChars u)))) := by
    rw [serializeURL_data, coreChars, hpt]
    simp [List.append_assoc]
  rw [parseURL, hdata]
  simp only [schemeSplit_ser u.scheme hs]
  have hstop := takeWhile_append_stop (fun c => !(c == '/') && !(c == '?') && !(c == '#'))
    (coreChars u) (pt ++ (qChars u ++ fChars u)) '/'
    (coreChars_auth_pred u hun hpw hhost) (by decide)
  rw [hstop.1, hstop.2]
  simp only [parseAuthority_ser u hs hun hpw hhost hlow hport]
  rw [show ('/' :: (pt ++ (qChars u ++ fChars u))) =
    u.path.data ++ (qChars u ++ fChars u) by rw [hpt]; rfl]
  simp only [parsePathQF_ser u hpne hpall hpdot hq hf]

theorem parseURL_ser0 (u : URLRec) (h : WF u) (hp : u.path = "/")
    (hqn : u.query = none) (hfn : u.fragment = none) :
    parseURL ⟨u.scheme.data ++ ':' :: '/' :: '/' :: coreChars u⟩ = some u := by
  obtain ⟨hs, hhost, hlow, hun, hpw, hport, hpne, hphead, hpall, hpdot, hq, hf⟩ := h
  have hd : (⟨u.scheme.data ++ ':' :: '/' :: '/' :: coreChars u⟩ : String).data =
    u.scheme.data ++ ':' :: '/' :: '/' :: coreChars u := rfl
  rw [parseURL, hd]
  simp only [schemeSplit_ser u.scheme hs]
  have hall := takeWhile_all (fun c => !(c == '/') && !(c == '?') && !(c == '#'))
    (coreChars u) (coreChars_auth_pred u hun hpw hhost)
  rw [hall.1, hall.2]
  simp only [parseAuthority_ser u hs hun hpw hhost hlow hport]
  show some ((⟨u.scheme, u.username, u.password, u.host, u.port, "/", none, none⟩ : URLRec)) =
    some u
  rw [← hp]
  nth_rewrite 1 [← hqn]
  rw [← hfn]


/-! ## `normalizeUrl` on parsed inputs -/

theorem jsToLower_scheme (s : String) (hs : s = "http" ∨ s = "https") : jsToLower s = s := by
  rcases hs with rfl | rfl <;> decide

theorem lowerFix (u : URLRec) (hs : u.scheme = "http" ∨ u.scheme = "https")
    (hlow : u.host.data.map Char.toLower = u.host.data) :
    ({ u with scheme := jsToLower u.scheme, host := jsToLower u.host } : URLRec) = u := by
  have h1 : jsToLower u.scheme = u.scheme := jsToLower_scheme u.scheme hs
  have h2 : jsToLower u.host = u.host := by
    rw [jsToLower, hlow]
  rw [h1, h2]

theorem ser_shape_str (p : URLRec) : serializeURL p = ⟨p.scheme.data ++ ':' :: '/' :: '/' ::
    (coreChars p ++ (p.path.data ++ (qChars p ++ fChars p)))⟩ := by
  apply str_ext
  rw [serializeURL_data, coreChars]
  simp [List.append_assoc]

theorem ser_ne_empty (p : URLRec) (hs : p.scheme = "http" ∨ p.scheme = "https") :
    ¬(serializeURL p = "") := by
  intro hse
  have hc := congrArg String.data hse
  rw [serializeURL_data, show ("" : String).data = [] from rfl] at hc
  rcases hs with h | h <;> rw [h] at hc <;> simp at hc

theorem normalizeUrl_parse_fix (v : String) (p : URLRec) (hv : ¬(v = ""))
    (htrim : jsTrim v = v) (hscheme : hasHttpScheme v = true)
    (hparse : parseURL v = some p) (hs : p.scheme = "http" ∨ p.scheme = "https")
    (hlow : p.host.data.map Char.toLower = p.host.data) :
    normalizeUrl v = if endsWithSlash (serializeURL p) && p.path == "/"
      then dropLastChar (serializeURL p) else serializeURL p := by
  simp only [normalizeUrl, htrim]
  rw [if_neg hv]
  rw [hscheme, if_pos rfl]
  simp only [hparse]
  simp only [lowerFix p hs hlow]

theorem normalizeUrl_shape (u : String) (h : ¬(normalizeUrl u = "")) :
    ∃ p, WF p ∧ normalizeUrl u =
      (if endsWithSlash (serializeURL p) && p.path == "/" then dropLastChar (serializeURL p)
       else serializeURL p) := by
  by_cases ht : jsTrim u = ""
  · exfalso
    apply h
    simp only [normalizeUrl]
    rw [if_pos ht]
  · rcases hp : parseURL (if hasHttpScheme (jsTrim u) then jsTrim u
        else "https://" ++ jsTrim u) with - | p0
    · exfalso
      apply h
      simp only [normalizeUrl]
      rw [if_neg ht]
      simp only [hp]
    · have hWF := parseURL_wf _ p0 hp
      refine ⟨p0, hWF, ?_⟩
      simp only [normalizeUrl]
      rw [if_neg ht]
      simp only [hp]
      simp only [lowerFix p0 hWF.1 hWF.2.2.1]

theorem normalizeUrl_factor (u : String) (h : ¬(normalizeUrl u = "")) :
    ∃ p, WF p ∧ normalizeUrl u = normalizeUrl (serializeURL p) := by
  obtain ⟨p, hWF, heq⟩ := normalizeUrl_shape u h
  refine ⟨p, hWF, ?_⟩
  rw [heq, normalizeUrl_parse_fix (serializeURL p) p (ser_ne_empty p hWF.1)
    (jsTrim_of_no_ws _ (ser_no_ws p hWF))
    (by rw [ser_shape_str p]; exact hasHttpScheme_cons p.scheme hWF.1 _)
    (parseURL_ser p hWF) hWF.1 hWF.2.2.1]


/-! ## The shape of a normalized serialization -/

theorem ser_data_frag (p : URLRec) (g : String) :
    (serializeURL (⟨p.scheme, p.username, p.password, p.host, p.port, p.path, p.query,
      some g⟩ : URLRec)).data =
    p.scheme.data ++ ':' :: '/' :: '/' :: (uiChars p ++ (p.host.data ++ (portChars p ++
      (p.path.data ++ (qChars p ++ ('#' :: g.data)))))) := by
  rw [serializeURL_data]
  rfl

theorem ser_data_query (p : URLRec) (g : String) :
    (serializeURL (⟨p.scheme, p.username, p.password, p.host, p.port, p.path,
      some g, none⟩ : URLRec)).data =
    p.scheme.data ++ ':' :: '/' :: '/' :: (uiChars p ++ (p.host.data ++ (portChars p ++
      (p.path.data ++ (('?' :: g.data) ++ ([] : List Char)))))) := by
  rw [serializeURL_data]
  rfl

theorem norm_ser_shape (p : URLRec) (h : WF p) :
    ∃ p₂ T, WF p₂ ∧ p₂.scheme = p.scheme ∧ p₂.username = p.username ∧
      p₂.password = p.password ∧ p₂.host = p.host ∧ p₂.port = p.port ∧ p₂.path = p.path ∧
      parseURL (normalizeUrl (serializeURL p)) = some p₂ ∧
      (normalizeUrl (serializeURL p)).data = p.scheme.data ++ ':' :: '/' :: '/' ::
        (coreChars p ++ T) ∧
      (serializeURL p₂ = normalizeUrl (serializeURL p) ∨
        (serializeURL p₂ = normalizeUrl (serializeURL p) ++ "/" ∧ p₂.path = "/" ∧
          endsWithSlash (normalizeUrl (serializeURL p)) = false)) := by
  have hcopy := h
  obtain ⟨hs, hhost, hlow, hun, hpw, hport, hpne, hphead, hpall, hpdot, hq, hf⟩ := hcopy
  have hnorm := normalizeUrl_parse_fix (serializeURL p) p (ser_ne_empty p hs)
    (jsTrim_of_no_ws _ (ser_no_ws p h))
    (by rw [ser_shape_str p]; exact hasHttpScheme_cons p.scheme hs _)
    (parseURL_ser p h) hs hlow
  by_cases hc : (endsWithSlash (serializeURL p) && p.path == "/") = true
  · rw [hnorm, if_pos hc]
    have hc2 := hc
    rw [Bool.and_eq_true] at hc2
    have hpath : p.path = "/" := beq_iff_eq.1 hc2.2
    have hsl : endsWithSlash (serializeURL p) = true := hc2.1
    have hpd : p.path.data = ['/'] := by rw [hpath]
    rcases hff : p.fragment with - | f
    · rcases hqq : p.query with - | q
      · have hqce : qChars p = [] := by rw [qChars, hqq]
        have hfce : fChars p = [] := by rw [fChars, hff]
        have hdser : (serializeURL p).data =
            (p.scheme.data ++ ':' :: '/' :: '/' :: coreChars p) ++ ['/'] := by
          rw [serializeURL_data, coreChars, hpd, hqce, hfce]
          simp [List.append_assoc]
        have hvd : (dropLastChar (serializeURL p)).data =
            p.scheme.data ++ ':' :: '/' :: '/' :: coreChars p := by
          show (serializeURL p).data.dropLast = _
          rw [hdser, List.dropLast_concat]
        have hvstr : dropLastChar (serializeURL p) =
            ⟨p.scheme.data ++ ':' :: '/' :: '/' :: coreChars p⟩ := str_ext hvd
        have hcne : coreChars p ≠ [] := by
          rw [coreChars]
          intro hE
          rcases List.append_eq_nil.1 hE with ⟨h1, h2⟩
          rcases List.append_eq_nil.1 h2 with ⟨h3, h4⟩
          exact host_ne_nil _ hhost h3
        obtain ⟨x, hx⟩ := Option.isSome_iff_exists.1 (List.getLast?_isSome.2 hcne)
        have hxs : (x == '/') = false :=
          coreChars_no_slash p hun hpw hhost x (List.mem_of_mem_getLast? hx)
        refine ⟨p, [], h, rfl, rfl, rfl, rfl, rfl, rfl, ?_, ?_, Or.inr ⟨?_, hpath, ?_⟩⟩
        · rw [hvstr]
          exact parseURL_ser0 p h hpath hqq hff
        · rw [hvd, List.append_nil]
        · apply str_ext
          rw [String.data_append, hdser, hvd]
        · rw [endsWithSlash, lastChar, hvd]
          have hlast : (p.scheme.data ++ ':' :: '/' :: '/' :: coreChars p).getLast? =
              some x := by
            rw [show (':' :: '/' :: '/' :: coreChars p) =
                [':', '/', '/'] ++ coreChars p from rfl,
              List.getLast?_append, List.getLast?_append, hx]
            rfl
          rw [hlast]
          rw [beq_eq_false_iff_ne]
          intro hxe
          exact (beq_eq_false_iff_ne.1 hxs) (Option.some.inj hxe)
      · have hqce : qChars p = '?' :: q.data := by rw [qChars, hqq]
        have hfce : fChars p = [] := by rw [fChars, hff]
        rcases List.eq_nil_or_concat q.data with hqd | ⟨qs, lc, hqd⟩
        on_goal 2 => rw [List.concat_eq_append] at hqd
        · exfalso
          have hdser : (serializeURL p).data = (p.scheme.data ++ ':' :: '/' :: '/' ::
              (coreChars p ++ ['/'])) ++ ['?'] := by
            rw [serializeURL_data, coreChars, hpd, hqce, hfce, hqd]
            simp [List.append_assoc]
          rw [endsWithSlash, lastChar, hdser, List.getLast?_concat] at hsl
          exact absurd hsl (by decide)
        · have hqall : (⟨qs⟩ : String).data.all isQueryChar = true := by
            have hqa := hq q hqq
            rw [hqd, List.all_append, Bool.and_eq_true] at hqa
            exact hqa.1
          have hWF₂ : WF (⟨p.scheme, p.username, p.password, p.host, p.port, p.path,
              some ⟨qs⟩, none⟩ : URLRec) :=
            ⟨hs, hhost, hlow, hun, hpw, hport, hpne, hphead, hpall, hpdot,
              fun q0 hq0 => by rw [← Option.some.inj hq0]; exact hqall,
              fun f0 hf0 => nomatch hf0⟩
          have hser₂ := ser_data_query p ⟨qs⟩
          have hchain : (serializeURL p).data =
              (serializeURL (⟨p.scheme, p.username, p.password, p.host, p.port, p.path,
                some ⟨qs⟩, none⟩ : URLRec)).data ++ [lc] := by
            rw [serializeURL_data, hser₂, hqce, hfce, hqd]
            simp [List.append_assoc]
          have hv₂ : serializeURL (⟨p.scheme, p.username, p.password, p.host, p.port, p.path,
              some ⟨qs⟩, none⟩ : URLRec) = dropLastChar (serializeURL p) := by
            apply str_ext
            show _ = (serializeURL p).data.dropLast
            rw [hchain, List.dropLast_concat]
          refine ⟨_, p.path.data ++ (('?' :: qs) ++ ([] : List Char)), hWF₂,
            rfl, rfl, rfl, rfl, rfl, rfl, ?_, ?_, Or.inl hv₂⟩
          · rw [← hv₂]
            exact parseURL_ser _ hWF₂
          · rw [← hv₂, hser₂, coreChars]
            simp [List.append_assoc]
    · rcases List.eq_nil_or_concat f.data with hfd | ⟨fs, lc, hfd⟩
      on_goal 2 => rw [List.concat_eq_append] at hfd
      · exfalso
        have hfce : fChars p = ['#'] := by
          simp only [fChars, hff]
          rw [hfd]
        have hdser : (serializeURL p).data = (p.scheme.data ++ ':' :: '/' :: '/' ::
            (coreChars p ++ ('/' :: qChars p))) ++ ['#'] := by
          rw [serializeURL_data, coreChars, hpd, hfce]
          simp [List.append_assoc]
        rw [endsWithSlash, lastChar, hdser, List.getLast?_concat] at hsl
        exact absurd hsl (by decide)
      · have hfall : (⟨fs⟩ : String).data.all isFragChar = true := by
          have hfa := hf f hff
          rw [hfd, List.all_append, Bool.and_eq_true] at hfa
          exact hfa.1
        have hWF₂ : WF (⟨p.scheme, p.username, p.password, p.host, p.port, p.path,
            p.query, some ⟨fs⟩⟩ : URLRec) :=
          ⟨hs, hhost, hlow, hun, hpw, hport, hpne, hphead, hpall, hpdot, hq,
            fun f0 hf0 => by rw [← Option.some.inj hf0]; exact hfall⟩
        have hser₂ := ser_data_frag p ⟨fs⟩
        have hfce : fChars p = '#' :: f.data := by rw [fChars, hff]
        have hchain : (serializeURL p).data =
            (serializeURL (⟨p.scheme, p.username, p.password, p.host, p.port, p.path,
              p.query, some ⟨fs⟩⟩ : URLRec)).data ++ [lc] := by
          rw [serializeURL_data, hser₂, hfce, hfd]
          simp [List.append_assoc]
        have hv₂ : serializeURL (⟨p.scheme, p.username, p.password, p.host, p.port, p.path,
            p.query, some ⟨fs⟩⟩ : URLRec) = dropLastChar (serializeURL p) := by
          apply str_ext
          show _ = (serializeURL p).data.dropLast
          rw [hchain, List.dropLast_concat]
        refine ⟨_, p.path.data ++ (qChars p ++ ('#' :: fs)), hWF₂,
          rfl, rfl, rfl, rfl, rfl, rfl, ?_, ?_, Or.inl hv₂⟩
        · rw [← hv₂]
          exact parseURL_ser _ hWF₂
        · rw [← hv₂, hser₂, coreChars]
          simp [List.append_assoc]
  · rw [hnorm, if_neg hc]
    refine ⟨p, p.path.data ++ (qChars p ++ fChars p), h, rfl, rfl, rfl, rfl, rfl, rfl,
      parseURL_ser p h, ?_, Or.inl rfl⟩
    rw [serializeURL_data, coreChars]
    simp [List.append_assoc]


/-! ## C8: idempotence of `normalizeUrl` -/

/-- C8 (amended): `normalizeUrl` is idempotent on every input it accepts
(non-empty result) whose normalized form no longer satisfies the
trailing-slash strip condition (`stripAgain`): re-normalizing such an
output reproduces it exactly.  The unamended claim is refuted by
`C8_normalize_idem_counterexample`: when the query (or fragment) of a
root-path URL itself ends in `/`, the strip removes a query character,
and a second application strips again. -/
theorem C8_normalize_idem (u : String) (h1 : ¬(normalizeUrl u = ""))
    (h2 : stripAgain (normalizeUrl u) = false) :
    normalizeUrl (normalizeUrl u) = normalizeUrl u := by
  obtain ⟨p, hWF, heq⟩ := normalizeUrl_factor u h1
  rw [heq] at h2 ⊢
  obtain ⟨p₂, T, hWF₂, he1, he2, he3, he4, he5, he6, hparse, hdata, hdisj⟩ :=
    norm_ser_shape p hWF
  have hvne : ¬(normalizeUrl (serializeURL p) = "") := by
    intro he
    have hd := hdata
    rw [he, show ("" : String).data = [] from rfl] at hd
    rcases hWF.1 with hsx | hsx <;> rw [hsx] at hd <;> simp at hd
  have hhs : hasHttpScheme (normalizeUrl (serializeURL p)) = true := by
    have hrepr : normalizeUrl (serializeURL p) =
        ⟨p.scheme.data ++ ':' :: '/' :: '/' :: (coreChars p ++ T)⟩ := str_ext hdata
    rw [hrepr]
    exact hasHttpScheme_cons p.scheme hWF.1 _
  have htrim : jsTrim (normalizeUrl (serializeURL p)) = normalizeUrl (serializeURL p) := by
    apply jsTrim_of_no_ws
    intro c hcm
    rcases hdisj with hd | ⟨hd, h2p, h3p⟩
    · exact ser_no_ws p₂ hWF₂ c (by rw [hd]; exact hcm)
    · apply ser_no_ws p₂ hWF₂ c
      rw [hd, String.data_append]
      exact List.mem_append.2 (Or.inl hcm)
  simp only [stripAgain, hparse] at h2
  rw [normalizeUrl_parse_fix _ p₂ hvne htrim hhs hparse hWF₂.1 hWF₂.2.2.1]
  rcases hdisj with hd | ⟨hd, hp₂path, hends⟩
  · rw [hd]
    rw [if_neg (by rw [h2]; exact Bool.false_ne_true)]
  · have hesl : endsWithSlash (serializeURL p₂) = true := by
      rw [hd, endsWithSlash, lastChar, String.data_append,
        show ("/" : String).data = ['/'] from rfl, List.getLast?_concat]
      rfl
    have hcond : (endsWithSlash (serializeURL p₂) && p₂.path == "/") = true := by
      rw [hesl, hp₂path]
      decide
    rw [if_pos hcond, hd]
    apply str_ext
    show (normalizeUrl (serializeURL p) ++ "/").data.dropLast =
      (normalizeUrl (serializeURL p)).data
    rw [String.data_append, show ("/" : String).data = ['/'] from rfl, List.dropLast_concat]

/-- C8 counterexample: `normalizeUrl` is not idempotent on every input it
accepts.  For `"https://example.com/?a//"` the parser sees the root path
`/` and a query `a//`; the serialization ends in `/`, so the strip
removes the final query character, and a second application removes yet
another one. -/
theorem C8_normalize_idem_counterexample :
    normalizeUrl "https://example.com/?a//" = "https://example.com/?a/" ∧
    normalizeUrl "https://example.com/?a/" = "https://example.com/?a" ∧
    ¬(normalizeUrl "https://example.com/?a//" = "") ∧
    ¬(normalizeUrl (normalizeUrl "https://example.com/?a//") =
      normalizeUrl "https://example.com/?a//") := by
  refine ⟨by decide, by decide, by decide, ?_⟩
  rw [show normalizeUrl "https://example.com/?a//" = "https://example.com/?a/" from by decide]
  decide

theorem C8_normalize_idem_witness :
    ¬(normalizeUrl "https://example.com/page" = "") ∧
    stripAgain (normalizeUrl "https://example.com/page") = false ∧
    normalizeUrl (normalizeUrl "https://example.com/page") =
      normalizeUrl "https://example.com/page" :=
  ⟨by decide, by decide, C8_normalize_idem "https://example.com/page" (by decide) (by decide)⟩


/-! ## C10: `validateUrl` constrains only scheme and host -/

theorem bool_eq_false {b : Bool} (h : ¬(b = true)) : b = false := by
  cases b
  · rfl
  · exact absurd rfl h

theorem norm_ser_ne_empty (p : URLRec) (h : WF p) :
    ¬(normalizeUrl (serializeURL p) = "") := by
  obtain ⟨p₂, T, hWF₂, he1, he2, he3, he4, he5, he6, hparse, hdata, hdisj⟩ :=
    norm_ser_shape p h
  intro he
  rw [he, show ("" : String).data = [] from rfl] at hdata
  rcases h.1 with hsx | hsx <;> rw [hsx] at hdata <;> simp at hdata

/-- C10 (amended): `validateUrl` constrains only the scheme and the
hostname: on the serialization of any well-formed http(s) URL record its
verdict equals `hostOnlyAccept` of the host alone, so any explicit
non-default port and any userinfo are accepted; when the host is
acceptable, the returned URL is the normalization and it preserves the
(non-default) port text `:n` and the userinfo text verbatim.  The
unamended claim fails for default ports: `C10_port_counterexample` shows
`:443` is accepted but elided from the returned URL rather than
preserved. -/
theorem C10_scheme_host_only (p : URLRec) (h : WF p) :
    (validateUrl (serializeURL p)).valid = hostOnlyAccept p.host ∧
    (hostOnlyAccept p.host = true →
      (validateUrl (serializeURL p)).url = some (normalizeUrl (serializeURL p)) ∧
      (∀ n, p.port = some n →
        listSubstr (':' :: natChars n) (normalizeUrl (serializeURL p)).data = true) ∧
      (uiChars p ≠ [] →
        listSubstr (uiChars p) (normalizeUrl (serializeURL p)).data = true)) := by
  obtain ⟨p₂, T, hWF₂, hesch, heun, hepw, hehost, heport, hepath, hparse, hdata, hdisj⟩ :=
    norm_ser_shape p h
  simp only [validateUrl]
  rw [if_neg (norm_ser_ne_empty p h)]
  simp only [hparse]
  have hschemeok : (!(["http:", "https:"].contains (p₂.scheme ++ ":"))) = false := by
    rw [hesch]
    rcases h.1 with hsx | hsx <;> rw [hsx] <;> decide
  rw [hschemeok, if_neg Bool.false_ne_true, hehost]
  by_cases hb : BLOCKED_HOSTNAMES.contains (jsToLower p.host) = true
  · rw [if_pos hb]
    constructor
    · show false = hostOnlyAccept p.host
      rw [hostOnlyAccept, hb]
      rfl
    · intro hacc
      rw [hostOnlyAccept, hb] at hacc
      simp at hacc
  · rw [if_neg hb]
    by_cases hpv : anyPrivate p.host = true
    · rw [if_pos hpv]
      constructor
      · show false = hostOnlyAccept p.host
        rw [hostOnlyAccept, hpv, bool_eq_false hb]
        rfl
      · intro hacc
        rw [hostOnlyAccept, bool_eq_false hb, hpv] at hacc
        simp at hacc
    · rw [if_neg hpv]
      by_cases hdm : (!(strIncludes p.host ".") && !(BLOCKED_HOSTNAMES.contains p.host)) = true
      · rw [if_pos hdm]
        rw [Bool.and_eq_true, Bool.not_eq_true', Bool.not_eq_true'] at hdm
        constructor
        · show false = hostOnlyAccept p.host
          rw [hostOnlyAccept, bool_eq_false hb, bool_eq_false hpv, hdm.1, hdm.2]
          rfl
        · intro hacc
          rw [hostOnlyAccept, bool_eq_false hb, bool_eq_false hpv, hdm.1, hdm.2] at hacc
          simp at hacc
      · rw [if_neg hdm]
        have h3 := bool_eq_false hdm
        rw [Bool.and_eq_false_iff, Bool.not_eq_false', Bool.not_eq_false'] at h3
        have hacc : hostOnlyAccept p.host = true := by
          rw [hostOnlyAccept, bool_eq_false hb, bool_eq_false hpv]
          rcases h3 with hI | hC
          · rw [hI, Bool.true_or]
            rfl
          · rw [hC, Bool.or_true]
            rfl
        constructor
        · show true = hostOnlyAccept p.host
          rw [hacc]
        · intro hacc2
          refine ⟨rfl, ?_, ?_⟩
          · intro n hn
            have hpc : portChars p = ':' :: natChars n := by rw [portChars, hn]
            have hrepr : (normalizeUrl (serializeURL p)).data =
                (p.scheme.data ++ [':', '/', '/'] ++ uiChars p ++ p.host.data) ++
                ((':' :: natChars n) ++ T) := by
              rw [hdata, coreChars, hpc]
              simp [List.append_assoc]
            rw [hrepr]
            exact listSubstr_embed _ _ _
          · intro hui
            have hrepr : (normalizeUrl (serializeURL p)).data =
                (p.scheme.data ++ [':', '/', '/']) ++
                (uiChars p ++ (p.host.data ++ (portChars p ++ T))) := by
              rw [hdata, coreChars]
              simp [List.append_assoc]
            rw [hrepr]
            exact listSubstr_embed _ _ _

/-- C10 counterexample: an explicit default port is accepted but not
preserved: `validateUrl "https://example.com:443"` accepts with
normalized URL `https://example.com`, which does not contain `:443`. -/
theorem C10_port_counterexample :
    validateUrl "https://example.com:443" =
      ⟨true, some "https://example.com", none⟩ ∧
    listSubstr (':' :: natChars 443) ("https://example.com").data = false := by
  decide

theorem C10_scheme_host_only_witness :
    (validateUrl (serializeURL (⟨"https", "user", "pass", "example.com", some 8080,
      "/x", none, none⟩ : URLRec))).valid = hostOnlyAccept "example.com" ∧
    listSubstr (':' :: natChars 8080) (normalizeUrl (serializeURL (⟨"https", "user", "pass",
      "example.com", some 8080, "/x", none, none⟩ : URLRec))).data = true := by
  have hwf : WF (⟨"https", "user", "pass", "example.com", some 8080, "/x", none, none⟩ :
      URLRec) := by
    refine ⟨Or.inr rfl, by decide, by decide, by decide, by decide, ?_, by decide, by decide,
      by decide, by decide, ?_, ?_⟩
    · intro n hn
      rw [← Option.some.inj hn]
      exact ⟨by decide, by decide, by decide⟩
    · intro q hq
      exact Option.noConfusion hq
    · intro f hf
      exact Option.noConfusion hf
  have hres := C10_scheme_host_only _ hwf
  refine ⟨hres.1, ?_⟩
  exact ((hres.2 (by decide)).2.1) 8080 rfl


/-! ## C7: host-only inputs through `validateUrl` -/

theorem validateUrl_hostonly (hst : String) (hv : validHost hst.data = true)
    (hlow : hst.data.map Char.toLower = hst.data) :
    validateUrl ("http://" ++ hst) =
      (if BLOCKED_HOSTNAMES.contains (jsToLower hst) = true then
        ⟨false, none, some "Internal/localhost URLs are not allowed"⟩
      else if anyPrivate hst = true then
        ⟨false, none, some "Private IP addresses are not allowed"⟩
      else if (!(strIncludes hst ".") && !(BLOCKED_HOSTNAMES.contains hst)) = true then
        ⟨false, none, some "URL must have a valid domain"⟩
      else ⟨true, some ("http://" ++ hst), none⟩) := by
  have hWF : WF (⟨"http", "", "", hst, none, "/", none, none⟩ : URLRec) := by
    refine ⟨Or.inl rfl, hv, hlow,
      (show ("" : String).data.all isUserChar = true by decide),
      (show ("" : String).data.all isUserChar = true by decide), ?_,
      (show ("/" : String).data ≠ [] by decide),
      (show ("/" : String).data.head? = some '/' by decide),
      (show ("/" : String).data.all isPathChar = true by decide),
      (show ((splitOnP (fun c => c == '/') ("/" : String).data).any
        (fun s => s == ['.'] || s == ['.', '.'])) = false by decide), ?_, ?_⟩
    · intro n hn
      exact Option.noConfusion hn
    · intro q hq
      exact Option.noConfusion hq
    · intro f hf
      exact Option.noConfusion hf
  have hcore : coreChars (⟨"http", "", "", hst, none, "/", none, none⟩ : URLRec) =
      hst.data := by
    rw [coreChars,
      show uiChars (⟨"http", "", "", hst, none, "/", none, none⟩ : URLRec) = [] from rfl,
      show portChars (⟨"http", "", "", hst, none, "/", none, none⟩ : URLRec) = [] from rfl,
      List.nil_append, List.append_nil]
  have hstr : ("http://" ++ hst) = (⟨("http" : String).data ++ ':' :: '/' :: '/' ::
      hst.data⟩ : String) := by
    apply str_ext
    show ("http://" : String).data ++ hst.data =
      ("http" : String).data ++ ':' :: '/' :: '/' :: hst.data
    rfl
  have hparse0 : parseURL ("http://" ++ hst) =
      some (⟨"http", "", "", hst, none, "/", none, none⟩ : URLRec) := by
    have h0 := parseURL_ser0 _ hWF rfl rfl rfl
    rw [hcore] at h0
    rw [hstr]
    exact h0
  have hne : ¬(("http://" ++ hst) = "") := by
    intro he
    have hc := congrArg String.data he
    rw [String.data_append, show ("http://" : String).data =
      ['h', 't', 't', 'p', ':', '/', '/'] from rfl,
      show ("" : String).data = [] from rfl] at hc
    simp at hc
  have hntrim : jsTrim ("http://" ++ hst) = "http://" ++ hst := by
    apply jsTrim_of_no_ws
    intro c hcm
    rw [String.data_append] at hcm
    rcases List.mem_append.1 hcm with hcm | hcm
    · have hall : ∀ x ∈ ("http://" : String).data, Char.isWhitespace x = false := by decide
      exact hall c hcm
    · have hcl := validHost_chars hst.data hv c hcm
      simp only [Bool.or_eq_true, beq_iff_eq] at hcl
      rcases hcl with ((hx | rfl) | rfl) | rfl
      · exact ws_false_of_class isHostChar (by decide) (by decide) (by decide) (by decide) hx
      · decide
      · decide
      · decide
  have hnsch : hasHttpScheme ("http://" ++ hst) = true := by
    rw [hstr]
    exact hasHttpScheme_cons "http" (Or.inl rfl) hst.data
  have hnorm := normalizeUrl_parse_fix ("http://" ++ hst) _ hne hntrim hnsch hparse0
    (Or.inl rfl) hlow
  have hserd : (serializeURL (⟨"http", "", "", hst, none, "/", none, none⟩ : URLRec)).data =
      ("http://" ++ hst).data ++ ['/'] := by
    rw [serializeURL_data, String.data_append,
      show uiChars (⟨"http", "", "", hst, none, "/", none, none⟩ : URLRec) = [] from rfl,
      show portChars (⟨"http", "", "", hst, none, "/", none, none⟩ : URLRec) = [] from rfl,
      show qChars (⟨"http", "", "", hst, none, "/", none, none⟩ : URLRec) = [] from rfl,
      show fChars (⟨"http", "", "", hst, none, "/", none, none⟩ : URLRec) = [] from rfl,
      show (⟨"http", "", "", hst, none, "/", none, none⟩ : URLRec).path.data = ['/'] from rfl,
      show (⟨"http", "", "", hst, none, "/", none, none⟩ : URLRec).scheme.data =
        ['h', 't', 't', 'p'] from rfl,
      show (⟨"http", "", "", hst, none, "/", none, none⟩ : URLRec).host.data =
        hst.data from rfl,
      show ("http://" : String).data = ['h', 't', 't', 'p', ':', '/', '/'] from rfl]
    simp [List.append_assoc]
  have hstrip : (endsWithSlash (serializeURL (⟨"http", "", "", hst, none, "/", none,
      none⟩ : URLRec)) && (⟨"http", "", "", hst, none, "/", none, none⟩ : URLRec).path ==
      "/") = true := by
    rw [endsWithSlash, lastChar, hserd, List.getLast?_concat,
      show (⟨"http", "", "", hst, none, "/", none, none⟩ : URLRec).path = "/" from rfl]
    decide
  have hnormv : normalizeUrl ("http://" ++ hst) = "http://" ++ hst := by
    rw [hnorm, if_pos hstrip]
    apply str_ext
    show (serializeURL (⟨"http", "", "", hst, none, "/", none,
      none⟩ : URLRec)).data.dropLast = ("http://" ++ hst).data
    rw [hserd, List.dropLast_concat]
  simp only [validateUrl, hnormv]
  rw [if_neg hne]
  simp only [hparse0]
  rw [show (!(["http:", "https:"].contains (("http" : String) ++ ":"))) = false from by decide]
  rw [if_neg Bool.false_ne_true]

/-! ## Dotted-quad IPv4 hosts -/

theorem splitOnP_dot_ipv4 (a b c d : Nat) :
    splitOnP (fun c => c == '.') (ipv4Chars a b c d) =
      [natChars a, natChars b, natChars c, natChars d] := by
  have hnd : ∀ k : Nat, ∀ x ∈ natChars k, (fun c => c == '.') x = false := fun k x hx => by
    simp [beq_false_of_pred (List.all_eq_true.1 (natChars_digits k) x hx)
      (show Char.isDigit '.' = false by decide)]
  rw [ipv4Chars]
  rw [splitOnP_append_piece _ _ _ (hnd a), splitOnP_sep_cons _ _ _ (by decide)]
  simp only [List.headD_cons, List.tail_cons, List.append_nil]
  rw [splitOnP_append_piece _ _ _ (hnd b), splitOnP_sep_cons _ _ _ (by decide)]
  simp only [List.headD_cons, List.tail_cons, List.append_nil]
  rw [splitOnP_append_piece _ _ _ (hnd c), splitOnP_sep_cons _ _ _ (by decide)]
  simp only [List.headD_cons, List.tail_cons, List.append_nil]
  rw [splitOnP_all_no_sep _ _ (hnd d)]

theorem natChars_not_isEmpty (k : Nat) : (!(natChars k).isEmpty) = true := by
  cases hna : natChars k with
  | nil => exact absurd hna (natChars_ne_nil k)
  | cons x xs => rfl

theorem ipv4_validHostCore (a b c d : Nat) (ha : a ≤ 255) (hb : b ≤ 255)
    (hc : c ≤ 255) (hd : d ≤ 255) : validHostCore (ipv4Chars a b c d) = true := by
  simp only [validHostCore]
  rw [splitOnP_dot_ipv4]
  simp only [Bool.and_eq_true]
  refine ⟨⟨⟨?_, ?_⟩, ?_⟩, ?_⟩
  · rw [ipv4Chars]
    cases hna : natChars a with
    | nil => exact absurd hna (natChars_ne_nil a)
    | cons x xs => rfl
  · rw [List.all_eq_true]
    intro x hx
    rw [ipv4Chars] at hx
    simp only [List.mem_append, List.mem_cons] at hx
    rcases hx with hx | rfl | hx | rfl | hx | rfl | hx
    · simp [isHostChar, List.all_eq_true.1 (natChars_digits a) x hx]
    · decide
    · simp [isHostChar, List.all_eq_true.1 (natChars_digits b) x hx]
    · decide
    · simp [isHostChar, List.all_eq_true.1 (natChars_digits c) x hx]
    · decide
    · simp [isHostChar, List.all_eq_true.1 (natChars_digits d) x hx]
  · rw [List.all_eq_true]
    intro x hx
    simp only [List.mem_cons, List.not_mem_nil, or_false] at hx
    rcases hx with rfl | rfl | rfl | rfl <;> exact natChars_not_isEmpty _
  · rw [show ([natChars a, natChars b, natChars c, natChars d].getLastD []) =
      natChars d from rfl]
    rw [natChars_digits d, if_pos rfl]
    simp only [Bool.and_eq_true]
    refine ⟨rfl, ?_⟩
    rw [List.all_eq_true]
    intro x hx
    simp only [List.mem_cons, List.not_mem_nil, or_false] at hx
    rcases hx with rfl | rfl | rfl | rfl
    · exact isCanonOctet_natChars a ha
    · exact isCanonOctet_natChars b hb
    · exact isCanonOctet_natChars c hc
    · exact isCanonOctet_natChars d hd

theorem natChars_map_toLower (k : Nat) : (natChars k).map Char.toLower = natChars k := by
  have : ∀ x ∈ natChars k, Char.toLower x = x := fun x hx =>
    isDigit_toLower x (List.all_eq_true.1 (natChars_digits k) x hx)
  rw [List.map_congr_left (fun x hx => this x hx)]
  simp

theorem ipv4_lower (a b c d : Nat) :
    (ipv4Chars a b c d).map Char.toLower = ipv4Chars a b c d := by
  rw [ipv4Chars]
  simp only [List.map_append, List.map_cons]
  rw [natChars_map_toLower a, natChars_map_toLower b, natChars_map_toLower c,
    natChars_map_toLower d, show Char.toLower '.' = '.' from rfl]

theorem matches172_digits (c1 c2 : Char) (R : List Char)
    (hg : ((c1 == '1' && ('6' ≤ c2 && c2 ≤ '9')) ||
      (c1 == '2' && c2.isDigit) || (c1 == '3' && (c2 == '0' || c2 == '1'))) = true) :
    matches172 ('1' :: '7' :: '2' :: '.' :: c1 :: c2 :: '.' :: R) = true := by
  simp only [matches172]
  exact hg

theorem anyPrivate_of_range (a b c d : Nat) (hr : inPrivateRangesSpec a b) :
    anyPrivate ⟨ipv4Chars a b c d⟩ = true := by
  rw [anyPrivate]
  simp only [PRIVATE_IP_RANGES, List.any_cons, List.any_nil, Bool.or_eq_true]
  rcases hr with rfl | ⟨rfl, hb1, hb2⟩ | ⟨rfl, rfl⟩ | rfl | rfl | ⟨rfl, rfl⟩
  · left
    rw [matches10, ipv4Chars, show natChars 10 = ['1', '0'] from rfl]
    exact listPrefixAt_self_append ['1', '0', '.'] _
  · right
    left
    have hbd : natChars b = [Nat.digitChar (b / 10), Nat.digitChar (b % 10)] := by
      rw [natChars_decomp b (by omega), natChars_lt10 (b / 10) (by omega)]
      rfl
    rw [ipv4Chars, hbd, show natChars 172 = ['1', '7', '2'] from rfl]
    simp only [List.cons_append, List.nil_append]
    apply matches172_digits
    interval_cases b <;> decide
  · right
    right
    left
    rw [matches192, ipv4Chars, show natChars 192 = ['1', '9', '2'] from rfl,
      show natChars 168 = ['1', '6', '8'] from rfl]
    exact listPrefixAt_self_append ['1', '9', '2', '.', '1', '6', '8', '.'] _
  · right
    right
    right
    left
    rw [matches127, ipv4Chars, show natChars 127 = ['1', '2', '7'] from rfl]
    exact listPrefixAt_self_append ['1', '2', '7', '.'] _
  · right
    right
    right
    right
    left
    rw [matches0, ipv4Chars, show natChars 0 = ['0'] from rfl]
    exact listPrefixAt_self_append ['0', '.'] _
  · right
    right
    right
    right
    right
    left
    rw [matches169254, ipv4Chars, show natChars 169 = ['1', '6', '9'] from rfl,
      show natChars 254 = ['2', '5', '4'] from rfl]
    exact listPrefixAt_self_append ['1', '6', '9', '.', '2', '5', '4', '.'] _

theorem ipv4_head_digit (a b c d : Nat) :
    ∃ x, (ipv4Chars a b c d).head? = some x ∧ x.isDigit = true := by
  rw [ipv4Chars]
  cases hna : natChars a with
  | nil => exact absurd hna (natChars_ne_nil a)
  | cons x xs =>
    refine ⟨x, by rw [List.cons_append]; rfl, ?_⟩
    have hda := natChars_digits a
    rw [hna] at hda
    simp only [List.all_cons, Bool.and_eq_true] at hda
    exact hda.1

theorem blocked_contains_ipv4 (a b c d : Nat)
    (h1 : ¬((⟨ipv4Chars a b c d⟩ : String) = "127.0.0.1"))
    (h2 : ¬((⟨ipv4Chars a b c d⟩ : String) = "0.0.0.0"))
    (h3 : ¬((⟨ipv4Chars a b c d⟩ : String) = "169.254.169.254")) :
    BLOCKED_HOSTNAMES.contains (⟨ipv4Chars a b c d⟩ : String) = false := by
  obtain ⟨x, hx, hxd⟩ := ipv4_head_digit a b c d
  cases hcc : BLOCKED_HOSTNAMES.contains (⟨ipv4Chars a b c d⟩ : String)
  · rfl
  · exfalso
    have hmem : (⟨ipv4Chars a b c d⟩ : String) ∈ BLOCKED_HOSTNAMES :=
      List.mem_of_elem_eq_true hcc
    have hhead : ∀ (s : String), (⟨ipv4Chars a b c d⟩ : String) = s →
        s.data.head? = some x := by
      intro s hEq
      rw [← hEq]
      exact hx
    simp only [BLOCKED_HOSTNAMES, List.mem_cons, List.not_mem_nil, or_false] at hmem
    rcases hmem with heq | heq | heq | heq | heq | heq | heq
    · have hh := hhead _ heq
      rw [show ("localhost" : String).data.head? = some 'l' from rfl,
        Option.some.injEq] at hh
      rw [← hh] at hxd
      exact absurd hxd (by decide)
    · exact h1 heq
    · exact h2 heq
    · have hh := hhead _ heq
      rw [show ("::1" : String).data.head? = some ':' from rfl, Option.some.injEq] at hh
      rw [← hh] at hxd
      exact absurd hxd (by decide)
    · have hh := hhead _ heq
      rw [show ("[::1]" : String).data.head? = some '[' from rfl, Option.some.injEq] at hh
      rw [← hh] at hxd
      exact absurd hxd (by decide)
    · have hh := hhead _ heq
      rw [show ("metadata.google.internal" : String).data.head? = some 'm' from rfl,
        Option.some.injEq] at hh
      rw [← hh] at hxd
      exact absurd hxd (by decide)
    · exact h3 heq


/-! ## Bracketed IPv6 hosts -/

theorem bracket_validHost (inner : List Char) (hne : inner ≠ [])
    (hall : inner.all (fun c => c.isDigit || ('a' ≤ c && c ≤ 'f') || c == ':') = true) :
    validHost ('[' :: (inner ++ [']'])) = true := by
  have hdrop : ('[' :: (inner ++ [']'])).drop 1 = inner ++ [']'] := rfl
  have hbr : validBracketHost ('[' :: (inner ++ [']'])) = true := by
    rw [validBracketHost]
    simp only [Bool.and_eq_true]
    refine ⟨⟨⟨?_, ?_⟩, ?_⟩, ?_⟩
    · rfl
    · rw [← List.cons_append, List.getLast?_concat]
      rfl
    · rw [hdrop, List.dropLast_concat]
      cases inner with
      | nil => exact absurd rfl hne
      | cons x xs => rfl
    · rw [hdrop, List.dropLast_concat]
      exact hall
  rw [validHost, hbr, Bool.or_true]

theorem bracket_lower (inner : List Char)
    (hall : inner.all (fun c => c.isDigit || ('a' ≤ c && c ≤ 'f') || c == ':') = true) :
    ('[' :: (inner ++ [']'])).map Char.toLower = '[' :: (inner ++ [']']) := by
  have hfix : ∀ x ∈ inner, Char.toLower x = x := by
    intro x hx
    have hcl := List.all_eq_true.1 hall x hx
    simp only [Bool.or_eq_true, Bool.and_eq_true, decide_eq_true_eq, beq_iff_eq] at hcl
    rcases hcl with (hdg | ⟨h1, h2⟩) | rfl
    · exact isDigit_toLower x hdg
    · have hna := charle_toNat h1
      have hnb := charle_toNat h2
      rw [show ('a').toNat = 97 from rfl] at hna
      rw [show ('f').toNat = 102 from rfl] at hnb
      exact toLower_eq_self x (by omega)
    · rfl
  rw [List.map_cons, List.map_append, List.map_congr_left (fun x hx => hfix x hx)]
  simp [show Char.toLower '[' = '[' from rfl, show Char.toLower ']' = ']' from rfl]

theorem inner_head_f (inner : List Char)
    (hpre : listPrefixAt ("fc00:").data inner = true ∨
      listPrefixAt ("fe80:").data inner = true) :
    ∃ irest, inner = 'f' :: irest := by
  rcases hpre with hp | hp
  · cases inner with
    | nil => exact absurd hp (by decide)
    | cons i0 irest =>
      rw [show ("fc00:" : String).data = ['f', 'c', '0', '0', ':'] from rfl,
        listPrefixAt, Bool.and_eq_true, beq_iff_eq] at hp
      exact ⟨irest, by rw [← hp.1]⟩
  · cases inner with
    | nil => exact absurd hp (by decide)
    | cons i0 irest =>
      rw [show ("fe80:" : String).data = ['f', 'e', '8', '0', ':'] from rfl,
        listPrefixAt, Bool.and_eq_true, beq_iff_eq] at hp
      exact ⟨irest, by rw [← hp.1]⟩

theorem matches172_not1 (x : Char) (hX : (x == '1') = false) (R : List Char) :
    matches172 (x :: R) = false := by
  rw [matches172.eq_def]
  split
  · rename_i heq
    injection heq with h1 h2
    rw [h1] at hX
    exact absurd hX (by decide)
  · rfl

theorem anyPrivate_bracket (inner : List Char)
    (hlow : ('[' :: (inner ++ [']'])).map Char.toLower = '[' :: (inner ++ [']'])) :
    anyPrivate ⟨'[' :: (inner ++ [']'])⟩ = false := by
  rw [anyPrivate]
  simp only [PRIVATE_IP_RANGES, List.any_cons, List.any_nil, Bool.or_eq_false_iff]
  refine ⟨?_, ?_, ?_, ?_, ?_, ?_, ?_, ?_, trivial⟩
  · rw [matches10, show ("10." : String).data = ['1', '0', '.'] from rfl, listPrefixAt,
      show (('1' : Char) == '[') = false from rfl, Bool.false_and]
  · exact matches172_not1 '[' (by decide) _
  · rw [matches192, show ("192.168." : String).data =
      ['1', '9', '2', '.', '1', '6', '8', '.'] from rfl, listPrefixAt,
      show (('1' : Char) == '[') = false from rfl, Bool.false_and]
  · rw [matches127, show ("127." : String).data = ['1', '2', '7', '.'] from rfl, listPrefixAt,
      show (('1' : Char) == '[') = false from rfl, Bool.false_and]
  · rw [matches0, show ("0." : String).data = ['0', '.'] from rfl, listPrefixAt,
      show (('0' : Char) == '[') = false from rfl, Bool.false_and]
  · rw [matches169254, show ("169.254." : String).data =
      ['1', '6', '9', '.', '2', '5', '4', '.'] from rfl, listPrefixAt,
      show (('1' : Char) == '[') = false from rfl, Bool.false_and]
  · rw [matchesFc00, hlow, show ("fc00:" : String).data = ['f', 'c', '0', '0', ':'] from rfl,
      listPrefixAt, show (('f' : Char) == '[') = false from rfl, Bool.false_and]
  · rw [matchesFe80, hlow, show ("fe80:" : String).data = ['f', 'e', '8', '0', ':'] from rfl,
      listPrefixAt, show (('f' : Char) == '[') = false from rfl, Bool.false_and]

theorem C7_ipv6_reject (inner : List Char)
    (hall : inner.all (fun c => c.isDigit || ('a' ≤ c && c ≤ 'f') || c == ':') = true)
    (hpre : listPrefixAt ("fc00:").data inner = true ∨
      listPrefixAt ("fe80:").data inner = true) :
    validateUrl ("http://" ++ (⟨'[' :: (inner ++ [']'])⟩ : String)) =
      ⟨false, none, some "URL must have a valid domain"⟩ := by
  obtain ⟨irest, hinner⟩ := inner_head_f inner hpre
  have hne : inner ≠ [] := by
    rw [hinner]
    simp
  have hv : validHost (⟨'[' :: (inner ++ [']'])⟩ : String).data = true :=
    bracket_validHost inner hne hall
  have hlw : (⟨'[' :: (inner ++ [']'])⟩ : String).data.map Char.toLower =
      (⟨'[' :: (inner ++ [']'])⟩ : String).data := bracket_lower inner hall
  rw [validateUrl_hostonly _ hv hlw]
  have hjl : jsToLower (⟨'[' :: (inner ++ [']'])⟩ : String) =
      (⟨'[' :: (inner ++ [']'])⟩ : String) := by
    rw [jsToLower]
    exact congrArg String.mk (bracket_lower inner hall)
  rw [hjl]
  have hcont : BLOCKED_HOSTNAMES.contains (⟨'[' :: (inner ++ [']'])⟩ : String) = false := by
    cases hcc : BLOCKED_HOSTNAMES.contains (⟨'[' :: (inner ++ [']'])⟩ : String)
    · rfl
    · exfalso
      have hmem : (⟨'[' :: (inner ++ [']'])⟩ : String) ∈ BLOCKED_HOSTNAMES :=
        List.mem_of_elem_eq_true hcc
      have hdd : ∀ (s : String), (⟨'[' :: (inner ++ [']'])⟩ : String) = s →
          s.data = '[' :: (inner ++ [']']) := by
        intro s hEq
        rw [← hEq]
      simp only [BLOCKED_HOSTNAMES, List.mem_cons, List.not_mem_nil, or_false] at hmem
      rcases hmem with heq | heq | heq | heq | heq | heq | heq
      · have hx := hdd _ heq
        rw [show ("localhost" : String).data =
          ['l', 'o', 'c', 'a', 'l', 'h', 'o', 's', 't'] from rfl] at hx
        injection hx with hh ht
        exact absurd hh (by decide)
      · have hx := hdd _ heq
        rw [show ("127.0.0.1" : String).data =
          ['1', '2', '7', '.', '0', '.', '0', '.', '1'] from rfl] at hx
        injection hx with hh ht
        exact absurd hh (by decide)
      · have hx := hdd _ heq
        rw [show ("0.0.0.0" : String).data =
          ['0', '.', '0', '.', '0', '.', '0'] from rfl] at hx
        injection hx with hh ht
        exact absurd hh (by decide)
      · have hx := hdd _ heq
        rw [show ("::1" : String).data = [':', ':', '1'] from rfl] at hx
        injection hx with hh ht
        exact absurd hh (by decide)
      · have hx := hdd _ heq
        rw [show ("[::1]" : String).data = ['[', ':', ':', '1', ']'] from rfl] at hx
        injection hx with hh ht
        rw [hinner, List.cons_append] at ht
        injection ht with hh2 ht2
        exact absurd hh2 (by decide)
      · have hx := hdd _ heq
        rw [show ("metadata.google.internal" : String).data =
          ['m', 'e', 't', 'a', 'd', 'a', 't', 'a', '.', 'g', 'o', 'o', 'g', 'l', 'e', '.',
           'i', 'n', 't', 'e', 'r', 'n', 'a', 'l'] from rfl] at hx
        injection hx with hh ht
        exact absurd hh (by decide)
      · have hx := hdd _ heq
        rw [show ("169.254.169.254" : String).data =
          ['1', '6', '9', '.', '2', '5', '4', '.', '1', '6', '9', '.', '2', '5', '4']
          from rfl] at hx
        injection hx with hh ht
        exact absurd hh (by decide)
  rw [hcont, if_neg Bool.false_ne_true]
  rw [show anyPrivate (⟨'[' :: (inner ++ [']'])⟩ : String) = false from
    anyPrivate_bracket inner (by exact hlw), if_neg Bool.false_ne_true]
  have hdot : strIncludes (⟨'[' :: (inner ++ [']'])⟩ : String) "." = false := by
    show listSubstr ['.'] ('[' :: (inner ++ [']'])) = false
    apply listSubstr_single_false
    intro c hcm
    rcases List.mem_cons.1 hcm with rfl | hcm
    · decide
    rcases List.mem_append.1 hcm with hcm | hcm
    · have hcl := List.all_eq_true.1 hall c hcm
      simp only [Bool.or_eq_true, Bool.and_eq_true, decide_eq_true_eq, beq_iff_eq] at hcl
      rw [beq_eq_false_iff_ne]
      intro hEq
      rw [← hEq] at hcl
      rcases hcl with (hdg | ⟨h1x, h2x⟩) | hcx
      · exact absurd hdg (by decide)
      · exact absurd h1x (by decide)
      · exact absurd hcx (by decide)
    · rcases List.mem_cons.1 hcm with rfl | hcm
      · decide
      · cases hcm
  rw [hdot, if_pos (by decide)]

theorem C7_ipv4_reject (a b c d : Nat) (ha : a ≤ 255) (hb : b ≤ 255) (hc : c ≤ 255)
    (hd : d ≤ 255) (hr : inPrivateRangesSpec a b) :
    validateUrl ("http://" ++ (⟨ipv4Chars a b c d⟩ : String)) =
      (if (⟨ipv4Chars a b c d⟩ : String) ∈ (["127.0.0.1", "0.0.0.0",
          "169.254.169.254"] : List String) then
        ⟨false, none, some "Internal/localhost URLs are not allowed"⟩
      else ⟨false, none, some "Private IP addresses are not allowed"⟩) := by
  by_cases hmem : (⟨ipv4Chars a b c d⟩ : String) ∈ (["127.0.0.1", "0.0.0.0",
      "169.254.169.254"] : List String)
  · rw [if_pos hmem]
    simp only [List.mem_cons, List.not_mem_nil, or_false] at hmem
    rcases hmem with heq | heq | heq <;> rw [heq] <;> decide
  · rw [if_neg hmem]
    have hv : validHost (⟨ipv4Chars a b c d⟩ : String).data = true := by
      show validHost (ipv4Chars a b c d) = true
      rw [validHost, ipv4_validHostCore a b c d ha hb hc hd, Bool.true_or]
    have hlow2 : (⟨ipv4Chars a b c d⟩ : String).data.map Char.toLower =
        (⟨ipv4Chars a b c d⟩ : String).data := ipv4_lower a b c d
    rw [validateUrl_hostonly _ hv hlow2]
    have hjl : jsToLower (⟨ipv4Chars a b c d⟩ : String) = (⟨ipv4Chars a b c d⟩ : String) := by
      rw [jsToLower]
      exact congrArg String.mk (ipv4_lower a b c d)
    rw [hjl]
    have hn1 : ¬((⟨ipv4Chars a b c d⟩ : String) = "127.0.0.1") := fun hEq =>
      hmem (by rw [hEq]; exact List.mem_cons_self _ _)
    have hn2 : ¬((⟨ipv4Chars a b c d⟩ : String) = "0.0.0.0") := fun hEq =>
      hmem (by rw [hEq]; exact List.mem_cons_of_mem _ (List.mem_cons_self _ _))
    have hn3 : ¬((⟨ipv4Chars a b c d⟩ : String) = "169.254.169.254") := fun hEq =>
      hmem (by rw [hEq]; exact List.mem_cons_of_mem _ (List.mem_cons_of_mem _
        (List.mem_cons_self _ _)))
    rw [blocked_contains_ipv4 a b c d hn1 hn2 hn3, if_neg Bool.false_ne_true]
    rw [anyPrivate_of_range a b c d hr, if_pos rfl]

/-- C7 (amended): matching is on the literal host text, so the private-ip
rejection reason is produced exactly by the source's regular expressions,
not by the spec's address ranges.  Every canonical dotted-quad host whose
first octets lie in the listed IPv4 ranges is rejected, but the three
such literals on the blocked-hostname list (`127.0.0.1`, `0.0.0.0`,
`169.254.169.254`) get the blocked-host reason instead of the private-ip
reason; and a bracketed IPv6 host with the `fc00:`/`fe80:` prefix is
rejected with the missing-domain reason, because `url.hostname` keeps the
brackets and `/^fc00:/i`, `/^fe80:/i` cannot match `[`.  The unamended
claim (always the private-ip reason) is refuted by
`C7_private_ranges_counterexample`. -/
theorem C7_private_ranges :
    (∀ a b c d : Nat, a ≤ 255 → b ≤ 255 → c ≤ 255 → d ≤ 255 →
      inPrivateRangesSpec a b →
      validateUrl ("http://" ++ (⟨ipv4Chars a b c d⟩ : String)) =
        (if (⟨ipv4Chars a b c d⟩ : String) ∈ (["127.0.0.1", "0.0.0.0",
            "169.254.169.254"] : List String) then
          ⟨false, none, some "Internal/localhost URLs are not allowed"⟩
        else ⟨false, none, some "Private IP addresses are not allowed"⟩)) ∧
    (∀ inner : List Char,
      inner.all (fun c => c.isDigit || ('a' ≤ c && c ≤ 'f') || c == ':') = true →
      listPrefixAt ("fc00:").data inner = true ∨
        listPrefixAt ("fe80:").data inner = true →
      validateUrl ("http://" ++ (⟨'[' :: (inner ++ [']'])⟩ : String)) =
        ⟨false, none, some "URL must have a valid domain"⟩) :=
  ⟨fun a b c d ha hb hc hd hr => C7_ipv4_reject a b c d ha hb hc hd hr,
   fun inner hall hpre => C7_ipv6_reject inner hall hpre⟩

/-- C7 counterexample: hosts inside the spec's ranges that are rejected
with a different reason than private-ip.  `127.0.0.1` (in 127.0.0.0/8)
matches a private-ip pattern yet is caught first by the blocked-hostname
list; `[fe80::1]` (link-local prefix) is rejected as having no valid
domain, and `[fc00::1]` likewise; neither IPv6 literal triggers the
private-ip reason. -/
theorem C7_private_ranges_counterexample :
    validateUrl "http://127.0.0.1" =
      ⟨false, none, some "Internal/localhost URLs are not allowed"⟩ ∧
    anyPrivate "127.0.0.1" = true ∧
    validateUrl "http://[fe80::1]" = ⟨false, none, some "URL must have a valid domain"⟩ ∧
    validateUrl "http://[fc00::1]" = ⟨false, none, some "URL must have a valid domain"⟩ ∧
    ¬("Internal/localhost URLs are not allowed" = "Private IP addresses are not allowed") ∧
    ¬("URL must have a valid domain" = "Private IP addresses are not allowed") := by
  decide

theorem C7_private_ranges_witness :
    validateUrl ("http://" ++ (⟨ipv4Chars 10 0 0 1⟩ : String)) =
      (if (⟨ipv4Chars 10 0 0 1⟩ : String) ∈ (["127.0.0.1", "0.0.0.0",
          "169.254.169.254"] : List String) then
        ⟨false, none, some "Internal/localhost URLs are not allowed"⟩
      else ⟨false, none, some "Private IP addresses are not allowed"⟩) ∧
    validateUrl ("http://" ++ (⟨'[' :: (("fe80::1").data ++ [']'])⟩ : String)) =
      ⟨false, none, some "URL must have a valid domain"⟩ :=
  ⟨C7_private_ranges.1 10 0 0 1 (by decide) (by decide) (by decide) (by decide)
    (Or.inl rfl),
   C7_private_ranges.2 ("fe80::1").data (by decide) (Or.inr (by decide))⟩


end MultiLighthouse
